import Mathlib

/-!
# Hook dispatch of logrus (hooks.go)

A shallow embedding of the hook registry `LevelHooks` with its two methods
`Add` and `Fire`.

Modelling decisions, all read off the Go source:

* `Level` is only ever used as a map key, and `Entry` is only ever handed on to
  the hooks, so both are type parameters (`Level` with decidable equality).
* A `Hook` is a non-nil interface value.  `Fire(*Entry) error` receives a pointer
  and may write through it, so it is a function from the entry state to the new
  entry state together with the returned error; `none` is the nil error.
* `LevelHooks` is a Go map.  The zero value of a map type is the nil map, which
  can be read (every lookup gives the zero value) but not written: an assignment
  to an entry of the nil map is a run-time panic.  A map made by `make` is a
  finite function from keys to slices.
* Slices are modelled at two levels.  In `LevelHooks` a slice is the list of its
  elements; that is all `Fire` reads, and it is what `Add` does to a registry whose
  slices stored under different keys do not share a backing array, such as every
  registry built from `make(LevelHooks)` by `Add`.  In `Memory` a slice is a header
  into a backing array and `append` writes in place when the capacity allows, as
  in Go; `Memory.Add` is `Add` on every registry, and `Memory.Add_refines` shows
  that the two levels agree when no array is shared.
* A hook is arbitrary code and can reach the registry from its `Fire` method.
  `Hook` covers the hooks that reach the entry only; `World` covers the others,
  and `World.Fire_liftFire` shows that the two agree on the former.
* A run-time panic is the result `none` of an `Option`.
* `Fire` is instrumented with the list of calls `hook.Fire(entry)` it made, so
  that statements about which hooks are invoked, how often and in which order
  can be expressed.
-/

namespace Logrus

/-- The interface `Hook`: the three methods of a non-nil hook value. -/
structure Hook (Level Entry Error : Type) where
  /-- The method `Name() string`. -/
  Name : String
  /-- The method `Levels() []Level`. -/
  Levels : List Level
  /-- The method `Fire(*Entry) error`: new state of the entry, returned error. -/
  Fire : Entry → Entry × Option Error

/-- The struct `HookFailure`: a hook and the non-nil error it returned. -/
structure HookFailure (Level Entry Error : Type) where
  Hook : Logrus.Hook Level Entry Error
  Err : Error

/-- The slice type `HookFailures`. -/
abbrev HookFailures (Level Entry Error : Type) := List (HookFailure Level Entry Error)

/-- The map type `LevelHooks`: the nil map (zero value) or a map that was made. -/
inductive LevelHooks (Level Entry Error : Type) where
  | nilMap : LevelHooks Level Entry Error
  | made (m : Level → Option (List (Hook Level Entry Error))) : LevelHooks Level Entry Error

variable {Level Entry Error : Type}

/-- The map read `hooks[level]`: the stored slice, the nil slice for a missing key
and for the nil map. -/
def LevelHooks.get : LevelHooks Level Entry Error → Level → List (Hook Level Entry Error)
  | .nilMap, _ => []
  | .made m, level => (m level).getD []

/-- The map write `hooks[level] = v`: a panic (`none`) on the nil map. -/
def LevelHooks.set [DecidableEq Level] :
    LevelHooks Level Entry Error → Level → List (Hook Level Entry Error) →
      Option (LevelHooks Level Entry Error)
  | .nilMap, _, _ => none
  | .made m, level, v => some (.made (fun k => if k = level then some v else m k))

/-- The value `make(LevelHooks)`: a map without keys. -/
def LevelHooks.empty : LevelHooks Level Entry Error := .made (fun _ => none)

/-- The loop of `Add` over the levels still to visit:
`hooks[level] = append(hooks[level], hook)` for each of them in turn, with every
slice read as the list of its elements (`memAddLoop` is the loop on slices that
lie in backing arrays). -/
def addLoop [DecidableEq Level] (hook : Hook Level Entry Error) :
    List Level → LevelHooks Level Entry Error → Option (LevelHooks Level Entry Error)
  | [], hooks => some hooks
  | level :: rest, hooks =>
    match hooks.set level (hooks.get level ++ [hook]) with
    | none => none
    | some hooks1 => addLoop hook rest hooks1

/-- The method `LevelHooks.Add`: the registry after the call, `none` for a panic. -/
def LevelHooks.Add [DecidableEq Level] (hooks : LevelHooks Level Entry Error)
    (hook : Hook Level Entry Error) : Option (LevelHooks Level Entry Error) :=
  addLoop hook hook.Levels hooks

/-- One call `hook.Fire(entry)` made by the dispatcher: the hook and the state the
entry was in when it was passed. -/
structure Call (Level Entry Error : Type) where
  hook : Hook Level Entry Error
  entry : Entry

/-- The state of the loop of `Fire`: the entry behind the pointer, the result
variable `hookFailures` (`none` is the nil pointer), and the calls made so far. -/
structure FireState (Level Entry Error : Type) where
  entry : Entry
  hookFailures : Option (HookFailures Level Entry Error)
  calls : List (Call Level Entry Error)

/-- One iteration of the loop of `Fire`. -/
def fireStep (s : FireState Level Entry Error) (hook : Hook Level Entry Error) :
    FireState Level Entry Error :=
  match hook.Fire s.entry with
  | (entry1, some err) =>
    -- if hookFailures == nil then hookFailures = &HookFailures{}
    let fs : HookFailures Level Entry Error :=
      match s.hookFailures with
      | none => []
      | some fs => fs
    -- *hookFailures = append(*hookFailures, HookFailure{Hook:hook, Err:err})
    ⟨entry1, some (fs ++ [⟨hook, err⟩]), s.calls ++ [⟨hook, s.entry⟩]⟩
  | (entry1, none) => ⟨entry1, s.hookFailures, s.calls ++ [⟨hook, s.entry⟩]⟩

/-- The method `LevelHooks.Fire`: the loop over `hooks[level]`, started with the nil
result; the field `hookFailures` of the final state is the returned pointer. -/
def LevelHooks.Fire (hooks : LevelHooks Level Entry Error) (level : Level) (entry : Entry) :
    FireState Level Entry Error :=
  (hooks.get level).foldl fireStep ⟨entry, none, []⟩

/-- The hooks invoked by a run of `Fire`, in the order of the calls. -/
def FireState.invoked (s : FireState Level Entry Error) : List (Hook Level Entry Error) :=
  s.calls.map (fun c => c.hook)

/-- The records of a returned report, the nil pointer read as no record. -/
def FireState.records (s : FireState Level Entry Error) : HookFailures Level Entry Error :=
  s.hookFailures.getD []

/-- The record a call gives rise to: the hook paired with its error when the call
returned a non-nil error, nothing when it returned nil. -/
def Call.failure (c : Call Level Entry Error) : Option (HookFailure Level Entry Error) :=
  match (c.hook.Fire c.entry).2 with
  | some err => some ⟨c.hook, err⟩
  | none => none

/-- The loop invariant of `Fire`: the records collected so far are those of the
failed calls made so far, and the result is never a pointer to an empty slice. -/
def FireState.Sound (s : FireState Level Entry Error) : Prop :=
  s.records = s.calls.filterMap Call.failure ∧ s.hookFailures ≠ some []

/-- A sequence of `Add` calls, one hook after the other, stopping at a panic. -/
def addAll [DecidableEq Level] :
    List (Hook Level Entry Error) → LevelHooks Level Entry Error →
      Option (LevelHooks Level Entry Error)
  | [], hooks => some hooks
  | hook :: rest, hooks =>
    match hooks.Add hook with
    | none => none
    | some hooks1 => addAll rest hooks1

/-- The calls of a sequential run over a list of hooks: the first hook receives the
entry as passed, each later hook the entry as the hook before it left it. -/
def thread : List (Hook Level Entry Error) → Entry → List (Call Level Entry Error)
  | [], _ => []
  | hook :: rest, entry => ⟨hook, entry⟩ :: thread rest (hook.Fire entry).1

/-- The state of the entry after a sequential run over a list of hooks. -/
def threadEnd : List (Hook Level Entry Error) → Entry → Entry
  | [], entry => entry
  | hook :: rest, entry => threadEnd rest (hook.Fire entry).1

/-! ## Slices with backing arrays

The registry in memory: what `append` does when slices share an array. -/

/-- A slice header: the backing array (by its address), the offset of the first
element in that array, the length and the capacity. -/
structure Slice where
  arr : Nat
  off : Nat
  len : Nat
  cap : Nat

/-- The nil slice, the zero value of a slice type. -/
def Slice.zero : Slice := ⟨0, 0, 0, 0⟩

/-- The memory a registry lives in: the backing arrays by address, an array being
the list of its cells that hold a hook (the cells behind them hold nil), and the
map from levels to slice headers, `none` being the nil map. -/
structure Memory (Level Entry Error : Type) where
  arrays : List (List (Hook Level Entry Error))
  hooks : Option (Level → Option Slice)

/-- The cells of the array at an address. -/
def cellsAt {α : Type} (arrays : List (List α)) (a : Nat) : List α :=
  (arrays[a]?).getD []

/-- The elements of a slice: `len` cells of its array from `off` on. -/
def sliceView {α : Type} (arrays : List (List α)) (s : Slice) : List α :=
  ((cellsAt arrays s.arr).drop s.off).take s.len

/-- The assignment `array[i] = x`, for a cell that holds a hook or is the first
cell that holds none. -/
def writeCell {α : Type} (cells : List α) (i : Nat) (x : α) : List α :=
  if i < cells.length then cells.set i x else cells ++ [x]

/-- The builtin `append(s, x)` for one element: when the capacity allows, the
element is written into the backing array behind the last element of the
slice, whatever that cell held; otherwise the elements are copied into a new
array, with as much spare capacity as the runtime (`grow`) decides. -/
def appendSlice {α : Type} (grow : Nat → Nat) (arrays : List (List α)) (s : Slice) (x : α) :
    List (List α) × Slice :=
  if s.len < s.cap then
    (arrays.set s.arr (writeCell (cellsAt arrays s.arr) (s.off + s.len) x),
      ⟨s.arr, s.off, s.len + 1, s.cap⟩)
  else
    (arrays ++ [sliceView arrays s ++ [x]],
      ⟨arrays.length, 0, s.len + 1, s.len + 1 + grow s.len⟩)

/-- The map read `hooks[level]` in memory: the stored slice header, the nil slice
for a missing key and for the nil map. -/
def Memory.get (M : Memory Level Entry Error) (level : Level) : Slice :=
  match M.hooks with
  | none => Slice.zero
  | some m => (m level).getD Slice.zero

/-- The hooks of the slice stored under a level. -/
def Memory.view (M : Memory Level Entry Error) (level : Level) : List (Hook Level Entry Error) :=
  sliceView M.arrays (M.get level)

/-- The loop of `Add` in memory: `hooks[level] = append(hooks[level], hook)` for
each level in turn; the assignment panics (`none`) on the nil map. -/
def memAddLoop [DecidableEq Level] (grow : Nat → Nat) (hook : Hook Level Entry Error) :
    List Level → Memory Level Entry Error → Option (Memory Level Entry Error)
  | [], M => some M
  | level :: rest, M =>
    match M.hooks with
    | none => none
    | some m =>
      memAddLoop grow hook rest
        ⟨(appendSlice grow M.arrays (M.get level) hook).1,
          some (fun k =>
            if k = level then some (appendSlice grow M.arrays (M.get level) hook).2 else m k)⟩

/-- The method `LevelHooks.Add` in memory. -/
def Memory.Add [DecidableEq Level] (grow : Nat → Nat) (M : Memory Level Entry Error)
    (hook : Hook Level Entry Error) : Option (Memory Level Entry Error) :=
  memAddLoop grow hook hook.Levels M

/-- The registry a memory holds, every slice read as the list of its elements. -/
def Memory.abs (M : Memory Level Entry Error) : LevelHooks Level Entry Error :=
  match M.hooks with
  | none => .nilMap
  | some m => .made (fun k => (m k).map (sliceView M.arrays))

/-- A slice header fits the arrays: the length is within the capacity, and a slice
with capacity lies in an array that exists, its elements in cells that hold hooks. -/
def Slice.Fits {α : Type} (arrays : List (List α)) (s : Slice) : Prop :=
  s.len ≤ s.cap ∧
    (0 < s.cap → s.arr < arrays.length ∧ s.off + s.len ≤ (cellsAt arrays s.arr).length)

/-- The slices stored under different keys do not share a backing array (and every
stored slice fits the arrays). -/
def Memory.Separate (M : Memory Level Entry Error) : Prop :=
  ∀ m, M.hooks = some m →
    (∀ k s, m k = some s → s.Fits M.arrays) ∧
    (∀ k1 k2 s1 s2, k1 ≠ k2 → m k1 = some s1 → m k2 = some s2 →
      0 < s1.cap → 0 < s2.cap → s1.arr ≠ s2.arr)

/-- The memory after `make(LevelHooks)`: no array, a map without keys. -/
def Memory.empty : Memory Level Entry Error := ⟨[], some (fun _ => none)⟩

/-- A sequence of `Add` calls in memory, one hook after the other, stopping at a
panic. -/
def memAddAll [DecidableEq Level] (grow : Nat → Nat) :
    List (Hook Level Entry Error) → Memory Level Entry Error →
      Option (Memory Level Entry Error)
  | [], M => some M
  | hook :: rest, M =>
    match M.Add grow hook with
    | none => none
    | some M1 => memAddAll grow rest M1

/-- The method `LevelHooks.Fire` in memory: the loop over the elements of the slice
`hooks[level]`. -/
def Memory.Fire (M : Memory Level Entry Error) (level : Level) (entry : Entry) :
    FireState Level Entry Error :=
  (M.view level).foldl fireStep ⟨entry, none, []⟩

/-! ## Hooks that reach the registry

A hook is arbitrary code: its `Fire` method can hold the registry (a map is a
reference) and call `Add` on it.  Here the hooks are known by their address, the
registry stores addresses, and the `Fire` method of a hook runs on the whole
program state. -/

/-- The program state a hook can reach from its `Fire` method: the registry, as the
sequence of hook addresses stored under each level, and the entry behind the
pointer. -/
structure World (Level Entry : Type) where
  hooks : Level → List Nat
  entry : Entry

/-- The state of the loop of `Fire` when the hooks run on the program state: that
state, the result variable `hookFailures` with the failed hooks by address, and the
addresses of the hooks called so far. -/
structure WorldFireState (Level Entry Error : Type) where
  world : World Level Entry
  hookFailures : Option (List (Nat × Error))
  calls : List Nat

/-- One iteration of the loop of `Fire` on the program state; `fire` gives the
`Fire` method of the hook at an address. -/
def worldFireStep (fire : Nat → World Level Entry → World Level Entry × Option Error)
    (s : WorldFireState Level Entry Error) (hook : Nat) : WorldFireState Level Entry Error :=
  match fire hook s.world with
  | (world1, some err) =>
    let fs : List (Nat × Error) :=
      match s.hookFailures with
      | none => []
      | some fs => fs
    ⟨world1, some (fs ++ [(hook, err)]), s.calls ++ [hook]⟩
  | (world1, none) => ⟨world1, s.hookFailures, s.calls ++ [hook]⟩

/-- The method `LevelHooks.Fire` on the program state: the slice `hooks[level]` is
read once, when the loop is entered, and the loop body has no assignment to the
map. -/
def World.Fire (fire : Nat → World Level Entry → World Level Entry × Option Error)
    (w : World Level Entry) (level : Level) : WorldFireState Level Entry Error :=
  (w.hooks level).foldl (worldFireStep fire) ⟨w, none, []⟩

/-- The `Fire` methods, by address, of hooks that reach the entry only: the hook at
address `a` is `impl a`, and the registry is handed on as it is. -/
def liftFire (impl : Nat → Hook Level Entry Error) :
    Nat → World Level Entry → World Level Entry × Option Error :=
  fun a w => (⟨w.hooks, ((impl a).Fire w.entry).1⟩, ((impl a).Fire w.entry).2)

/-- The states of the two loops of `Fire` agree: same entry, same hooks called, same
records. -/
def WorldFireState.Agrees (impl : Nat → Hook Level Entry Error)
    (s : WorldFireState Level Entry Error) (t : FireState Level Entry Error) : Prop :=
  s.world.entry = t.entry ∧ s.calls.map impl = t.invoked ∧
    s.hookFailures.map (List.map (fun p => (⟨impl p.1, p.2⟩ : HookFailure Level Entry Error)))
      = t.hookFailures

/-! ## Concrete hooks and registries used at the concrete inputs

Levels are numbered as in logrus: 2 is error, 3 is warn, 4 is info.  The entry is
the list of marks left on it by the hooks. -/

/-- A hook for level error that always fails with "disk full". -/
def hookA : Hook Nat (List String) String :=
  ⟨"hookA", [2], fun e => (e, some "disk full")⟩

/-- A hook for level error that always succeeds. -/
def hookB : Hook Nat (List String) String :=
  ⟨"hookB", [2], fun e => (e, none)⟩

/-- A failing hook for level error that marks the entry. -/
def hookC : Hook Nat (List String) String :=
  ⟨"hookC", [2], fun e => (e ++ ["c"], some "timeout")⟩

/-- A hook that declares warn and error. -/
def hookWE : Hook Nat (List String) String :=
  ⟨"hookWE", [3, 2], fun e => (e ++ ["we"], none)⟩

/-- A hook that declares level error twice. -/
def hookDup : Hook Nat (List String) String :=
  ⟨"hookDup", [2, 2], fun e => (e, none)⟩

/-- A hook that declares no level. -/
def hookNone : Hook Nat (List String) String :=
  ⟨"hookNone", [], fun e => (e, some "never")⟩

/-- A hook that declares a level outside the named severities. -/
def hookFar : Hook Nat (List String) String :=
  ⟨"hookFar", [2, 99], fun e => (e, none)⟩

/-- A registry built by hand: hookA, hookB, hookC under error, an empty slice under
warn, hookWE under info. -/
def sampleHooks : LevelHooks Nat (List String) String :=
  .made (fun k =>
    if k = 2 then some [hookA, hookB, hookC]
    else if k = 3 then some []
    else if k = 4 then some [hookWE]
    else none)

/-- A hook for level error that fails when the entry it receives carries a mark. -/
def hookSees : Hook Nat (List String) String :=
  ⟨"hookSees", [2], fun e => (e, if e.isEmpty then none else some "marked")⟩

/-- A hook that declares info only. -/
def hookInfo : Hook Nat (List String) String :=
  ⟨"hookInfo", [4], fun e => (e, none)⟩

/-- A registry with hookC followed by hookSees under error. -/
def chainHooks : LevelHooks Nat (List String) String :=
  .made (fun k => if k = 2 then some [hookC, hookSees] else none)

/-- A hook that declares warn only. -/
def hookWarn : Hook Nat (List String) String :=
  ⟨"hookWarn", [3], fun e => (e, none)⟩

/-- A growth policy for reallocation: as much spare capacity as there were elements. -/
def sampleGrow : Nat → Nat := fun n => n

/-- The memory of `arr := []Hook{hookA, hookB, hookC}` with the registry
`LevelHooks{error: arr[0:1], warn: arr[0:3]}`: two slices of one array. -/
def aliasedMemory : Memory Nat (List String) String :=
  ⟨[[hookA, hookB, hookC]],
    some (fun k =>
      if k = 2 then some ⟨0, 0, 1, 3⟩ else if k = 3 then some ⟨0, 0, 3, 3⟩ else none)⟩

/-- The memory of `s := make([]Hook, 0, 2)` with the registry
`LevelHooks{error: s, warn: s}`. -/
def sharedEmptyMemory : Memory Nat (List String) String :=
  ⟨[[]],
    some (fun k =>
      if k = 2 then some ⟨0, 0, 0, 2⟩ else if k = 3 then some ⟨0, 0, 0, 2⟩ else none)⟩

/-- The memory of `s := append(make([]Hook, 0, 2), hookA)` with the registry
`LevelHooks{error: s, warn: s}`. -/
def sharedOneMemory : Memory Nat (List String) String :=
  ⟨[[hookA]],
    some (fun k =>
      if k = 2 then some ⟨0, 0, 1, 2⟩ else if k = 3 then some ⟨0, 0, 1, 2⟩ else none)⟩

/-- The memory of `arr := []Hook{hookB, hookA, hookB}` with the registry
`LevelHooks{error: arr[0:1], 99: arr[0:3]}`; none of the hooks changes the entry. -/
def aliasedPureMemory : Memory Nat (List String) String :=
  ⟨[[hookB, hookA, hookB]],
    some (fun k =>
      if k = 2 then some ⟨0, 0, 1, 3⟩ else if k = 99 then some ⟨0, 0, 3, 3⟩ else none)⟩

/-- A memory without shared arrays: hookA, hookB, hookC under error in an array with
one spare cell, an empty slice under warn, hookWE under info in an array of its
own. -/
def sampleMemory : Memory Nat (List String) String :=
  ⟨[[hookA, hookB, hookC], [hookWE]],
    some (fun k =>
      if k = 2 then some ⟨0, 0, 3, 4⟩
      else if k = 3 then some ⟨0, 0, 0, 0⟩
      else if k = 4 then some ⟨1, 0, 1, 1⟩
      else none)⟩

/-- A memory with hookA, hookB, hookSees, hookA under error; none of them changes
the entry. -/
def joinedMemory : Memory Nat (List String) String :=
  ⟨[[hookA, hookB, hookSees, hookA]], some (fun k => if k = 2 then some ⟨0, 0, 4, 4⟩ else none)⟩

/-- The first two hooks of joinedMemory under error. -/
def leftMemory : Memory Nat (List String) String :=
  ⟨[[hookA, hookB, hookSees, hookA]], some (fun k => if k = 2 then some ⟨0, 0, 2, 4⟩ else none)⟩

/-- The last two hooks of joinedMemory under error. -/
def rightMemory : Memory Nat (List String) String :=
  ⟨[[hookA, hookB, hookSees, hookA]], some (fun k => if k = 2 then some ⟨0, 2, 2, 2⟩ else none)⟩

/-- The `Fire` methods of two hooks by address: the hook at 0 calls `Add` with the
hook at 1, which declares error, and returns nil; the hook at 1 does nothing. -/
def reentrantFire : Nat → World Nat (List String) → World Nat (List String) × Option String
  | 0, w => (⟨fun k => if k = 2 then w.hooks k ++ [1] else w.hooks k, w.entry⟩, none)
  | _, w => (w, none)

/-- The program state with the hook at 0 stored under error and nothing else. -/
def reentrantWorld : World Nat (List String) :=
  ⟨fun k => if k = 2 then [0] else [], []⟩

/-- The `Fire` methods of two hooks that do not touch the registry: the hook at 0
marks the entry and fails, the hook at 1 succeeds. -/
def quietFire : Nat → World Nat (List String) → World Nat (List String) × Option String
  | 0, w => (⟨w.hooks, w.entry ++ ["0"]⟩, some "failed")
  | _, w => (w, none)

/-- The program state with the hooks at 0 and 1 stored under error. -/
def quietWorld : World Nat (List String) :=
  ⟨fun k => if k = 2 then [0, 1] else [], []⟩

/-- A memory that stores under error what sampleMemory stores there, in another
array, and nothing under any other level. -/
def errorOnlyMemory : Memory Nat (List String) String :=
  ⟨[[hookWE], [hookA, hookB, hookC]], some (fun k => if k = 2 then some ⟨1, 0, 3, 3⟩ else none)⟩

/-! ## Lemmas on the loop of Fire -/

theorem fireStep_calls (s : FireState Level Entry Error) (hook : Hook Level Entry Error) :
    (fireStep s hook).calls = s.calls ++ [⟨hook, s.entry⟩] := by
  unfold fireStep
  split <;> rfl

theorem fireStep_entry (s : FireState Level Entry Error) (hook : Hook Level Entry Error) :
    (fireStep s hook).entry = (hook.Fire s.entry).1 := by
  unfold fireStep
  split <;> simp_all

theorem fireStep_records (s : FireState Level Entry Error) (hook : Hook Level Entry Error) :
    (fireStep s hook).records = s.records ++ (Call.failure ⟨hook, s.entry⟩).toList := by
  unfold fireStep FireState.records Call.failure
  split
  · next entry1 err h =>
    cases hs : s.hookFailures <;> simp [h]
  · next entry1 h =>
    simp [h]

theorem fireStep_hookFailures_ne (s : FireState Level Entry Error)
    (hook : Hook Level Entry Error) (h : s.hookFailures ≠ some []) :
    (fireStep s hook).hookFailures ≠ some [] := by
  unfold fireStep
  split
  · simp
  · simpa using h

theorem foldl_fireStep_invoked (hs : List (Hook Level Entry Error))
    (s : FireState Level Entry Error) :
    (hs.foldl fireStep s).invoked = s.invoked ++ hs := by
  induction hs generalizing s with
  | nil => simp
  | cons hook rest ih =>
    rw [List.foldl_cons, ih]
    simp [FireState.invoked, fireStep_calls]

theorem fireStep_sound (s : FireState Level Entry Error) (hook : Hook Level Entry Error)
    (h : s.Sound) : (fireStep s hook).Sound := by
  refine ⟨?_, fireStep_hookFailures_ne s hook h.2⟩
  rw [fireStep_records, fireStep_calls, List.filterMap_append, h.1]
  cases hf : Call.failure (⟨hook, s.entry⟩ : Call Level Entry Error) <;> simp [hf]

theorem foldl_fireStep_sound (hs : List (Hook Level Entry Error))
    (s : FireState Level Entry Error) (h : s.Sound) : (hs.foldl fireStep s).Sound := by
  induction hs generalizing s with
  | nil => simpa using h
  | cons hook rest ih =>
    rw [List.foldl_cons]
    exact ih _ (fireStep_sound s hook h)

theorem Fire_sound (hooks : LevelHooks Level Entry Error) (level : Level) (entry : Entry) :
    (hooks.Fire level entry).Sound := by
  unfold LevelHooks.Fire
  apply foldl_fireStep_sound
  refine ⟨?_, ?_⟩ <;> simp [FireState.records]

theorem Fire_invoked (hooks : LevelHooks Level Entry Error) (level : Level) (entry : Entry) :
    (hooks.Fire level entry).invoked = hooks.get level := by
  unfold LevelHooks.Fire
  rw [foldl_fireStep_invoked]
  simp [FireState.invoked]

theorem Call.failure_eq_none_iff (c : Call Level Entry Error) :
    c.failure = none ↔ (c.hook.Fire c.entry).2 = none := by
  unfold Call.failure
  split <;> simp_all

/-- The lookup gives no hook exactly for the nil map, for a missing key and for a key
that maps to an empty slice. -/
theorem LevelHooks.get_eq_nil_iff (hooks : LevelHooks Level Entry Error) (level : Level) :
    hooks.get level = [] ↔
      hooks = .nilMap ∨ ∃ m, hooks = .made m ∧ (m level = none ∨ m level = some []) := by
  cases hooks with
  | nilMap => simp [LevelHooks.get]
  | made m =>
    cases hm : m level <;> simp [LevelHooks.get, hm]

/-! ## Lemmas on the loop of Add -/

theorem LevelHooks.get_set_made [DecidableEq Level]
    (m : Level → Option (List (Hook Level Entry Error))) (level : Level)
    (v : List (Hook Level Entry Error)) :
    ∃ m1, (LevelHooks.made m).set level v = some (.made m1) ∧
      ∀ l, (LevelHooks.made m1).get l = if l = level then v else (LevelHooks.made m).get l := by
  refine ⟨_, rfl, ?_⟩
  intro l
  by_cases hl : l = level <;> simp [LevelHooks.get, hl]

theorem addLoop_made [DecidableEq Level] (hook : Hook Level Entry Error) (ls : List Level)
    (m : Level → Option (List (Hook Level Entry Error))) :
    ∃ m1, addLoop hook ls (.made m) = some (.made m1) ∧
      ∀ l, (LevelHooks.made m1).get l
        = (LevelHooks.made m).get l ++ List.replicate (ls.count l) hook := by
  induction ls generalizing m with
  | nil => exact ⟨m, rfl, by simp⟩
  | cons level rest ih =>
    obtain ⟨m1, hset, hget⟩ :=
      LevelHooks.get_set_made m level ((LevelHooks.made m).get level ++ [hook])
    obtain ⟨m2, hloop, hget2⟩ := ih m1
    refine ⟨m2, ?_, ?_⟩
    · simp only [addLoop, hset, hloop]
    · intro l
      rw [hget2, hget]
      by_cases hl : l = level
      · subst hl
        simp [List.replicate_succ]
      · have hl2 : ¬ level = l := fun h => hl h.symm
        simp [hl, hl2, List.count_cons]

theorem addLoop_nilMap [DecidableEq Level] (hook : Hook Level Entry Error) (ls : List Level) :
    addLoop hook ls (.nilMap : LevelHooks Level Entry Error)
      = if ls = [] then some .nilMap else none := by
  cases ls <;> simp [addLoop, LevelHooks.set]

theorem addLoop_get [DecidableEq Level] (hook : Hook Level Entry Error) (ls : List Level)
    (hooks r : LevelHooks Level Entry Error) (h : addLoop hook ls hooks = some r) (l : Level) :
    r.get l = hooks.get l ++ List.replicate (ls.count l) hook := by
  cases hooks with
  | nilMap =>
    rw [addLoop_nilMap] at h
    by_cases hls : ls = []
    · subst hls
      simp at h
      subst h
      simp
    · simp [hls] at h
  | made m =>
    obtain ⟨m1, hloop, hget⟩ := addLoop_made hook ls m
    rw [hloop] at h
    cases h
    exact hget l

theorem Add_made [DecidableEq Level] (hook : Hook Level Entry Error)
    (m : Level → Option (List (Hook Level Entry Error))) :
    ∃ m1, (LevelHooks.made m).Add hook = some (.made m1) ∧
      ∀ l, (LevelHooks.made m1).get l
        = (LevelHooks.made m).get l ++ List.replicate (hook.Levels.count l) hook :=
  addLoop_made hook hook.Levels m

theorem Add_get [DecidableEq Level] (hooks r : LevelHooks Level Entry Error)
    (hook : Hook Level Entry Error) (h : hooks.Add hook = some r) (l : Level) :
    r.get l = hooks.get l ++ List.replicate (hook.Levels.count l) hook :=
  addLoop_get hook hook.Levels hooks r h l

theorem getElem?_block {α : Type} (A B : List α) (n : Nat) (a : α) (i : Nat)
    (h1 : A.length ≤ i) (h2 : i < A.length + n) :
    (A ++ List.replicate n a ++ B)[i]? = some a := by
  rw [List.getElem?_append_left (by simp; omega)]
  rw [List.getElem?_append_right h1]
  rw [List.getElem?_replicate]
  simp
  omega

/-! ## The dispatcher: which hooks are invoked and what is reported -/

/-- C1: for every registry, level and entry, the sequence of hook invocations made
by one call of Fire equals the list stored under the level: the stored hooks, in the
stored order, once per stored occurrence, and no other hook. -/
theorem Fire_invokes_stored_sequence (hooks : LevelHooks Level Entry Error) (level : Level)
    (entry : Entry) : (hooks.Fire level entry).invoked = hooks.get level :=
  Fire_invoked hooks level entry

/-- C2: Fire invokes every hook stored under the level whether or not earlier ones
failed, and the records of the report are exactly those of the calls that returned
a non-nil error, each pairing the hook with its error, in the order of the calls,
with no record for a call that succeeded.  With three hooks stored of which the
first and third fail the report is the first and the third; hookA failing with
"disk full" followed by hookB, which succeeds, gives the single record of hookA. -/
theorem Fire_fault_isolation (hooks : LevelHooks Level Entry Error) (level : Level)
    (entry : Entry) :
    ((hooks.Fire level entry).invoked = hooks.get level ∧
      (hooks.Fire level entry).records
        = (hooks.Fire level entry).calls.filterMap Call.failure) ∧
    (∀ (h1 h2 h3 : Hook Level Entry Error) (e1 e2 e3 : Entry) (err1 err3 : Error),
      hooks.get level = [h1, h2, h3] →
      h1.Fire entry = (e1, some err1) → h2.Fire e1 = (e2, none) →
      h3.Fire e2 = (e3, some err3) →
      (hooks.Fire level entry).invoked = [h1, h2, h3] ∧
        (hooks.Fire level entry).hookFailures = some [⟨h1, err1⟩, ⟨h3, err3⟩]) ∧
    (∃ r, addAll [hookA, hookB] LevelHooks.empty = some r ∧
      (r.Fire 2 []).invoked = [hookA, hookB] ∧
      (r.Fire 2 []).hookFailures = some [⟨hookA, "disk full"⟩]) := by
  refine ⟨⟨Fire_invoked hooks level entry, (Fire_sound hooks level entry).1⟩, ?_, ?_⟩
  · intro h1 h2 h3 e1 e2 e3 err1 err3 hget hf1 hf2 hf3
    refine ⟨by rw [Fire_invoked, hget], ?_⟩
    simp [LevelHooks.Fire, hget, fireStep, hf1, hf2, hf3]
  · exact ⟨_, rfl, rfl, rfl⟩

/-- The three hooks stored under error in the sample registry: hookA fails, hookB
succeeds, hookC fails, and the report is hookA with "disk full" followed by hookC
with "timeout". -/
theorem Fire_fault_isolation_witness :
    (sampleHooks.Fire 2 []).invoked = [hookA, hookB, hookC] ∧
      (sampleHooks.Fire 2 []).hookFailures
        = some [⟨hookA, "disk full"⟩, ⟨hookC, "timeout"⟩] :=
  (Fire_fault_isolation sampleHooks 2 []).2.1 hookA hookB hookC [] [] ["c"]
    "disk full" "timeout" rfl rfl rfl rfl

/-- C3: Fire returns the nil pointer if and only if no call it made returned an
error, and a report it returns is never empty. -/
theorem Fire_nil_iff_no_failure (hooks : LevelHooks Level Entry Error) (level : Level)
    (entry : Entry) :
    ((hooks.Fire level entry).hookFailures = none ↔
      ∀ c ∈ (hooks.Fire level entry).calls, (c.hook.Fire c.entry).2 = none) ∧
    (∀ fs, (hooks.Fire level entry).hookFailures = some fs → fs ≠ []) := by
  obtain ⟨hrec, hne⟩ := Fire_sound hooks level entry
  constructor
  · constructor
    · intro hnone c hc
      have h0 : (hooks.Fire level entry).calls.filterMap Call.failure = [] := by
        rw [← hrec]; simp [FireState.records, hnone]
      rw [List.filterMap_eq_nil_iff] at h0
      exact (Call.failure_eq_none_iff c).1 (h0 c hc)
    · intro hall
      have h0 : (hooks.Fire level entry).calls.filterMap Call.failure = [] := by
        rw [List.filterMap_eq_nil_iff]
        intro c hc
        exact (Call.failure_eq_none_iff c).2 (hall c hc)
      rw [h0] at hrec
      cases hf : (hooks.Fire level entry).hookFailures with
      | none => rfl
      | some fs =>
        rw [FireState.records, hf] at hrec
        simp at hrec
        exact absurd (hrec ▸ hf) hne
  · intro fs hfs hnil
    exact hne (hnil ▸ hfs)

/-- C4: when no hook is stored under the level (nil map, missing key or empty
slice), Fire makes no call, returns the nil pointer and leaves the entry as it was,
whatever is stored under the other levels. -/
theorem Fire_unregistered_level (hooks : LevelHooks Level Entry Error) (level : Level)
    (entry : Entry)
    (h : hooks = .nilMap ∨ ∃ m, hooks = .made m ∧ (m level = none ∨ m level = some [])) :
    (hooks.Fire level entry).calls = [] ∧ (hooks.Fire level entry).hookFailures = none ∧
      (hooks.Fire level entry).entry = entry := by
  have hget : hooks.get level = [] := (LevelHooks.get_eq_nil_iff hooks level).2 h
  simp [LevelHooks.Fire, hget]

/-- In the sample registry warn maps to an empty slice while error and info hold
hooks: Fire at warn makes no call and returns the nil pointer. -/
theorem Fire_unregistered_level_witness :
    (sampleHooks.Fire 3 ["x"]).calls = [] ∧ (sampleHooks.Fire 3 ["x"]).hookFailures = none ∧
      (sampleHooks.Fire 3 ["x"]).entry = ["x"] :=
  Fire_unregistered_level sampleHooks 3 ["x"] (Or.inr ⟨_, rfl, Or.inr rfl⟩)

/-- One Add into the empty registry, then Fire: the calls made at each level. -/
theorem Add_empty_then_Fire [DecidableEq Level] (hook : Hook Level Entry Error) :
    ∃ r, LevelHooks.empty.Add hook = some r ∧ ∀ (level : Level) (entry : Entry),
      (r.Fire level entry).invoked = List.replicate (hook.Levels.count level) hook ∧
      (hook.Levels.count level = 1 → (r.Fire level entry).calls = [⟨hook, entry⟩]) ∧
      (level ∉ hook.Levels → (r.Fire level entry).calls = []) := by
  obtain ⟨m1, hadd, hget⟩ := Add_made hook (fun _ => none)
  refine ⟨_, hadd, ?_⟩
  intro level entry
  have hg : (LevelHooks.made m1).get level = List.replicate (hook.Levels.count level) hook := by
    rw [hget]; simp [LevelHooks.get]
  refine ⟨by rw [Fire_invoked, hg], ?_, ?_⟩
  · intro h1
    rw [h1] at hg
    simp [LevelHooks.Fire, hg, fireStep_calls]
  · intro hl
    rw [List.count_eq_zero_of_not_mem hl] at hg
    simp [LevelHooks.Fire, hg]

/-! ## Registration -/

/-- C6 fails as stated: hookDup declares level error twice; after one Add into the
empty registry, one call of Fire at error invokes it twice, not once. -/
theorem Fire_once_per_declared_level_counterexample :
    ∃ r, LevelHooks.empty.Add hookDup = some r ∧ 2 ∈ hookDup.Levels ∧
      (r.Fire 2 []).invoked = [hookDup, hookDup] ∧
      (r.Fire 2 []).calls.length = 2 :=
  ⟨_, rfl, by decide, rfl, rfl⟩

/-- C6 amended: after one Add of a hook into the empty registry, one call of Fire at a
level invokes the hook once for each occurrence of the level in Levels() and invokes
nothing else: exactly once, on the entry passed, when the level occurs once, and
never when the level is not declared. -/
theorem Add_then_Fire_per_occurrence [DecidableEq Level] (hook : Hook Level Entry Error) :
    ∃ r, LevelHooks.empty.Add hook = some r ∧ ∀ (level : Level) (entry : Entry),
      (r.Fire level entry).invoked = List.replicate (hook.Levels.count level) hook ∧
      (hook.Levels.count level = 1 → (r.Fire level entry).calls = [⟨hook, entry⟩]) ∧
      (level ∉ hook.Levels → (r.Fire level entry).calls = []) :=
  Add_empty_then_Fire hook

/-- C8 fails as stated: hookDup declares level error, and calling Add(hookDup) twice
on the empty registry leaves four entries for it under error, not two. -/
theorem Add_twice_two_entries_counterexample :
    ∃ r1 r2, LevelHooks.empty.Add hookDup = some r1 ∧ r1.Add hookDup = some r2 ∧
      2 ∈ hookDup.Levels ∧
      r2.get 2 = [hookDup, hookDup, hookDup, hookDup] ∧ (r2.get 2).length ≠ 2 :=
  ⟨_, _, rfl, rfl, by decide, rfl, by decide⟩

/-- C9: a hook whose Levels() returns two distinct levels l1 and l2, registered once
into the empty registry, is invoked (exactly once, on the entry passed) by Fire at l1
and by Fire at l2, and Fire at any other level makes no call. -/
theorem Fire_multi_level_hook [DecidableEq Level] (hook : Hook Level Entry Error)
    (l1 l2 : Level) (hne : l1 ≠ l2) (hlv : hook.Levels = [l1, l2]) :
    ∃ r, LevelHooks.empty.Add hook = some r ∧ ∀ e : Entry,
      (r.Fire l1 e).calls = [⟨hook, e⟩] ∧ (r.Fire l2 e).calls = [⟨hook, e⟩] ∧
      ∀ l3, l3 ≠ l1 → l3 ≠ l2 → (r.Fire l3 e).calls = [] := by
  obtain ⟨r, hadd, hfire⟩ := Add_empty_then_Fire hook
  refine ⟨r, hadd, ?_⟩
  intro e
  have hne2 : ¬ l2 = l1 := fun h => hne h.symm
  refine ⟨(hfire l1 e).2.1 ?_, (hfire l2 e).2.1 ?_, ?_⟩
  · simp [hlv, List.count_cons, hne2]
  · simp [hlv, List.count_cons, hne]
  · intro l3 h31 h32
    exact (hfire l3 e).2.2 (by simp [hlv, h31, h32])

/-- The hook hookWE declares warn and error: registered once into the empty
registry it is invoked by Fire at warn and at error and not by Fire at info. -/
theorem Fire_multi_level_hook_witness :
    ∃ r, LevelHooks.empty.Add hookWE = some r ∧
      (r.Fire 3 []).calls = [⟨hookWE, []⟩] ∧ (r.Fire 2 []).calls = [⟨hookWE, []⟩] ∧
      (r.Fire 4 []).calls = [] := by
  obtain ⟨r, hadd, hfire⟩ := Fire_multi_level_hook hookWE 3 2 (by decide) rfl
  exact ⟨r, hadd, (hfire []).1, (hfire []).2.1, (hfire []).2.2 4 (by decide) (by decide)⟩

/-- C10 fails as stated: on the zero value of the map type (the nil map) the call
Add(hookA), with Levels() the one level error, does not complete: the assignment
to an entry of the nil map panics. -/
theorem Add_nil_map_counterexample :
    hookA.Levels = [2] ∧ (LevelHooks.nilMap.Add hookA) = none :=
  ⟨rfl, rfl⟩

/-- C10 amended: on every map that was made Add completes, for every finite list of
levels (whatever their values: a level that is no key yet becomes one), and
afterwards the hook is stored under every declared level.  On the nil map Add
completes exactly when Levels() is empty.  Whenever Add completes the hook is stored
under every declared level, so no outcome stores it under only some of them.  With
an empty Levels() list Add completes on every registry and leaves it unchanged, so
Fire behaves as before and does not invoke the hook unless it was stored before. -/
theorem Add_completes_on_made_map [DecidableEq Level] (hooks : LevelHooks Level Entry Error)
    (hook : Hook Level Entry Error) :
    ((∃ m, hooks = .made m) →
      ∃ m1, hooks.Add hook = some (.made m1) ∧
        ∀ l ∈ hook.Levels, hook ∈ (LevelHooks.made m1).get l ∧ m1 l ≠ none) ∧
    (hooks = .nilMap → (hooks.Add hook = none ↔ hook.Levels ≠ [])) ∧
    (∀ r, hooks.Add hook = some r → ∀ l ∈ hook.Levels, hook ∈ r.get l) ∧
    (hook.Levels = [] → hooks.Add hook = some hooks ∧
      ((∀ l, hook ∉ hooks.get l) →
        ∀ (l : Level) (e : Entry), hook ∉ (hooks.Fire l e).invoked)) := by
  have hmem : ∀ r, hooks.Add hook = some r → ∀ l ∈ hook.Levels, hook ∈ r.get l := by
    intro r h l hl
    rw [Add_get hooks r hook h l]
    have hc : 0 < hook.Levels.count l := List.count_pos_iff.2 hl
    simp
    right
    omega
  refine ⟨?_, ?_, hmem, ?_⟩
  · rintro ⟨m, rfl⟩
    obtain ⟨m1, h, _⟩ := Add_made hook m
    refine ⟨m1, h, ?_⟩
    intro l hl
    have hin := hmem _ h l hl
    refine ⟨hin, ?_⟩
    intro hnone
    simp [LevelHooks.get, hnone] at hin
  · rintro rfl
    unfold LevelHooks.Add
    rw [addLoop_nilMap]
    by_cases hls : hook.Levels = [] <;> simp [hls]
  · intro hls
    refine ⟨by simp [LevelHooks.Add, hls, addLoop], ?_⟩
    intro hno l e
    rw [Fire_invoked]
    exact hno l

/-- Adding hookFar, which declares error and the unnamed level 99, to the sample
registry completes; the hook is then stored under both, 99 having become a key.
Adding hookNone, which declares no level, to the nil map completes and changes
nothing. -/
theorem Add_completes_on_made_map_witness :
    (∃ r, sampleHooks.Add hookFar = some r ∧
      r.get 2 = [hookA, hookB, hookC, hookFar] ∧ r.get 99 = [hookFar]) ∧
    LevelHooks.nilMap.Add hookNone = some .nilMap := by
  obtain ⟨m1, hadd, _⟩ := (Add_completes_on_made_map sampleHooks hookFar).1 ⟨_, rfl⟩
  cases hadd
  exact ⟨⟨_, rfl, rfl, rfl⟩, ((Add_completes_on_made_map .nilMap hookNone).2.2.2 rfl).1⟩

/-! ## The dispatcher: frame and the entry shared by the hooks -/

theorem foldl_fireStep_thread (hs : List (Hook Level Entry Error))
    (s : FireState Level Entry Error) :
    (hs.foldl fireStep s).calls = s.calls ++ thread hs s.entry ∧
      (hs.foldl fireStep s).entry = threadEnd hs s.entry := by
  induction hs generalizing s with
  | nil => simp [thread, threadEnd]
  | cons hook rest ih =>
    rw [List.foldl_cons]
    obtain ⟨h1, h2⟩ := ih (fireStep s hook)
    rw [h1, h2, fireStep_calls, fireStep_entry]
    simp [thread, threadEnd]

theorem Fire_calls (hooks : LevelHooks Level Entry Error) (level : Level) (entry : Entry) :
    (hooks.Fire level entry).calls = thread (hooks.get level) entry := by
  unfold LevelHooks.Fire
  rw [(foldl_fireStep_thread _ _).1]
  rfl

theorem Fire_entry (hooks : LevelHooks Level Entry Error) (level : Level) (entry : Entry) :
    (hooks.Fire level entry).entry = threadEnd (hooks.get level) entry := by
  unfold LevelHooks.Fire
  rw [(foldl_fireStep_thread _ _).2]

theorem thread_head (hs : List (Hook Level Entry Error)) (entry : Entry)
    (c : Call Level Entry Error) (h : (thread hs entry)[0]? = some c) : c.entry = entry := by
  cases hs with
  | nil => simp [thread] at h
  | cons hook rest =>
    simp [thread] at h
    rw [← h]

theorem thread_succ (hs : List (Hook Level Entry Error)) (entry : Entry) (k : Nat)
    (c d : Call Level Entry Error) (hc : (thread hs entry)[k]? = some c)
    (hd : (thread hs entry)[k + 1]? = some d) : d.entry = (c.hook.Fire c.entry).1 := by
  induction hs generalizing entry k with
  | nil => simp [thread] at hc
  | cons hook rest ih =>
    cases k with
    | zero =>
      simp [thread] at hc hd
      rw [← hc]
      exact thread_head rest _ d hd
    | succ k =>
      simp only [thread, List.getElem?_cons_succ] at hc hd
      exact ih _ k hc hd

theorem threadEnd_getLast (hs : List (Hook Level Entry Error)) (entry : Entry) :
    threadEnd hs entry
      = match (thread hs entry).getLast? with
        | none => entry
        | some c => (c.hook.Fire c.entry).1 := by
  induction hs generalizing entry with
  | nil => rfl
  | cons hook rest ih =>
    rw [threadEnd, ih]
    cases rest with
    | nil => rfl
    | cons hook2 rest2 =>
      simp only [thread, List.getLast?_cons_cons]
      rw [List.getLast?_eq_getLast _ (List.cons_ne_nil _ _)]

/-- C12: the entry is shared sequentially.  In Fire(L, e) the k-th call is made on
the k-th hook stored under L; the first call receives e, each later call receives the
entry as the call before it left it, whether or not that call returned an error, and
the entry after Fire is the entry as the last call left it (e when no call was made):
the dispatcher never changes the entry itself. -/
theorem Fire_threads_entry (hooks : LevelHooks Level Entry Error) (level : Level)
    (entry : Entry) :
    (hooks.Fire level entry).invoked = hooks.get level ∧
    (hooks.Fire level entry).calls = thread (hooks.get level) entry ∧
    (∀ c, (hooks.Fire level entry).calls[0]? = some c → c.entry = entry) ∧
    (∀ (k : Nat) (c d : Call Level Entry Error),
      (hooks.Fire level entry).calls[k]? = some c →
      (hooks.Fire level entry).calls[k + 1]? = some d →
      d.entry = (c.hook.Fire c.entry).1) ∧
    (hooks.Fire level entry).entry
      = match (hooks.Fire level entry).calls.getLast? with
        | none => entry
        | some c => (c.hook.Fire c.entry).1 := by
  refine ⟨Fire_invoked hooks level entry, Fire_calls hooks level entry, ?_, ?_, ?_⟩
  · intro c hc
    rw [Fire_calls] at hc
    exact thread_head _ _ c hc
  · intro k c d hc hd
    rw [Fire_calls] at hc hd
    exact thread_succ _ _ k c d hc hd
  · rw [Fire_entry, Fire_calls]
    exact threadEnd_getLast _ _

/-- In chainHooks hookC marks the entry and fails; hookSees, called after it,
receives the marked entry and fails because of the mark. -/
theorem Fire_threads_entry_witness :
    (chainHooks.Fire 2 []).calls = [⟨hookC, []⟩, ⟨hookSees, ["c"]⟩] ∧
      (chainHooks.Fire 2 []).hookFailures
        = some [⟨hookC, "timeout"⟩, ⟨hookSees, "marked"⟩] ∧
      (chainHooks.Fire 2 []).entry = ["c"] :=
  ⟨(Fire_threads_entry chainHooks 2 []).2.1, rfl, rfl⟩

/-! ## The report and the stored sequence -/

theorem Fire_records (hooks : LevelHooks Level Entry Error) (level : Level) (entry : Entry) :
    (hooks.Fire level entry).records
      = (thread (hooks.get level) entry).filterMap Call.failure := by
  rw [(Fire_sound hooks level entry).1, Fire_calls]

theorem Call.failure_eq_some (c : Call Level Entry Error) (r : HookFailure Level Entry Error)
    (h : c.failure = some r) : r.Hook = c.hook ∧ (c.hook.Fire c.entry).2 = some r.Err := by
  unfold Call.failure at h
  split at h
  · next err herr =>
    cases h
    exact ⟨rfl, herr⟩
  · cases h

theorem length_filterMap_eq_iff {α β : Type} (f : α → Option β) (l : List α) :
    (l.filterMap f).length = l.length ↔ ∀ x ∈ l, f x ≠ none := by
  induction l with
  | nil => simp
  | cons x rest ih =>
    have hle := List.length_filterMap_le f rest
    cases hx : f x with
    | none =>
      simp [List.filterMap_cons, hx]
      omega
    | some b =>
      simp [List.filterMap_cons, hx, ih]

theorem thread_append (xs ys : List (Hook Level Entry Error)) (entry : Entry) :
    thread (xs ++ ys) entry = thread xs entry ++ thread ys (threadEnd xs entry) := by
  induction xs generalizing entry with
  | nil => rfl
  | cons hook rest ih => simp [thread, threadEnd, ih]

theorem threadEnd_of_unchanged (xs : List (Hook Level Entry Error)) (entry : Entry)
    (h : ∀ hook ∈ xs, ∀ e : Entry, (hook.Fire e).1 = e) : threadEnd xs entry = entry := by
  induction xs generalizing entry with
  | nil => rfl
  | cons hook rest ih =>
    rw [threadEnd, h hook (List.mem_cons_self _ _)]
    exact ih entry (fun k hk => h k (List.mem_cons_of_mem _ hk))

/-- C13: every record of a report returned by Fire(L, e) pairs a hook stored under L
with the non-nil error that a call of this hook made by Fire returned; so the number
of records is at most the number of hooks stored under L, and it is equal to it
exactly when every call returned an error. -/
theorem Fire_records_within_stored (hooks : LevelHooks Level Entry Error) (level : Level)
    (entry : Entry) :
    (∀ r ∈ (hooks.Fire level entry).records,
      r.Hook ∈ hooks.get level ∧
      ∃ c ∈ (hooks.Fire level entry).calls,
        c.hook = r.Hook ∧ (c.hook.Fire c.entry).2 = some r.Err) ∧
    (hooks.Fire level entry).records.length ≤ (hooks.get level).length ∧
    ((hooks.Fire level entry).records.length = (hooks.get level).length ↔
      ∀ c ∈ (hooks.Fire level entry).calls, (c.hook.Fire c.entry).2 ≠ none) := by
  have hrec := (Fire_sound hooks level entry).1
  have hlen : (hooks.Fire level entry).calls.length = (hooks.get level).length := by
    rw [← Fire_invoked hooks level entry, FireState.invoked, List.length_map]
  refine ⟨?_, ?_, ?_⟩
  · intro r hr
    rw [hrec, List.mem_filterMap] at hr
    obtain ⟨c, hc, hf⟩ := hr
    obtain ⟨h1, h2⟩ := Call.failure_eq_some c r hf
    refine ⟨?_, c, hc, h1.symm, h2⟩
    rw [← Fire_invoked hooks level entry, h1]
    exact List.mem_map_of_mem _ hc
  · rw [hrec, ← hlen]
    exact List.length_filterMap_le _ _
  · rw [hrec, ← hlen, length_filterMap_eq_iff]
    constructor
    · intro h c hc hnone
      exact h c hc ((Call.failure_eq_none_iff c).2 hnone)
    · intro h c hc hnone
      exact h c hc ((Call.failure_eq_none_iff c).1 hnone)

/-- In the sample registry two of the three hooks under error fail: two records,
both of hooks stored under error. -/
theorem Fire_records_within_stored_witness :
    (sampleHooks.Fire 2 []).records.length = 2 ∧ (sampleHooks.get 2).length = 3 ∧
      ∀ r ∈ (sampleHooks.Fire 2 []).records, r.Hook ∈ sampleHooks.get 2 :=
  ⟨rfl, rfl, fun r hr => ((Fire_records_within_stored sampleHooks 2 []).1 r hr).1⟩

/-! ## Order of registration -/

theorem addLoop_made_key [DecidableEq Level] (hook : Hook Level Entry Error) (ls : List Level)
    (m : Level → Option (List (Hook Level Entry Error))) :
    ∃ m1, addLoop hook ls (.made m) = some (.made m1) ∧
      ∀ k, m1 k
        = if k ∈ ls then some ((m k).getD [] ++ List.replicate (ls.count k) hook) else m k := by
  induction ls generalizing m with
  | nil => exact ⟨m, rfl, by simp⟩
  | cons level rest ih =>
    obtain ⟨m2, hloop, hkey⟩ :=
      ih (fun k => if k = level then some ((m level).getD [] ++ [hook]) else m k)
    refine ⟨m2, ?_, ?_⟩
    · simp only [addLoop, LevelHooks.set, LevelHooks.get, hloop]
    · intro k
      rw [hkey k]
      by_cases hk : k = level
      · subst hk
        by_cases hr : k ∈ rest
        · simp [hr, List.replicate_succ]
        · simp [hr, List.count_eq_zero_of_not_mem hr]
      · have hk2 : ¬ level = k := fun h => hk h.symm
        simp [hk, hk2, List.count_cons]

theorem addAll_pair_made [DecidableEq Level] (h1 h2 : Hook Level Entry Error)
    (m : Level → Option (List (Hook Level Entry Error))) :
    ∃ m2, addAll [h1, h2] (.made m) = some (.made m2) ∧
      ∀ k, m2 k
        = if k ∈ h2.Levels then
            some (((if k ∈ h1.Levels then
                some ((m k).getD [] ++ List.replicate (h1.Levels.count k) h1)
              else m k).getD []) ++ List.replicate (h2.Levels.count k) h2)
          else if k ∈ h1.Levels then
            some ((m k).getD [] ++ List.replicate (h1.Levels.count k) h1)
          else m k := by
  obtain ⟨m1, ha1, hk1⟩ := addLoop_made_key h1 h1.Levels m
  obtain ⟨m2, ha2, hk2⟩ := addLoop_made_key h2 h2.Levels m1
  refine ⟨m2, ?_, ?_⟩
  · simp only [addAll, LevelHooks.Add, ha1, ha2]
  · intro k
    rw [hk2 k, hk1 k]

/-! ## Lemmas on slices and on Add in memory -/

theorem take_set_self {α : Type} (l : List α) (n : Nat) (x : α) :
    (l.set n x).take n = l.take n := by
  apply List.ext_getElem?
  intro i
  rw [List.getElem?_take, List.getElem?_take]
  by_cases hi : i < n
  · have hne : n ≠ i := by omega
    simp [hi, List.getElem?_set_ne hne]
  · simp [hi]

theorem writeCell_view {α : Type} (cells : List α) (off len : Nat) (x : α)
    (h : off + len ≤ cells.length) :
    ((writeCell cells (off + len) x).drop off).take (len + 1)
      = (cells.drop off).take len ++ [x] := by
  unfold writeCell
  by_cases hlt : off + len < cells.length
  · simp only [hlt, if_true]
    have hn : ¬ off + len < off := by omega
    rw [List.drop_set, if_neg hn, Nat.add_sub_cancel_left, List.take_succ, take_set_self]
    have hl : len < (cells.drop off).length := by simp; omega
    rw [List.getElem?_set_self hl]
    rfl
  · have heq : off + len = cells.length := by omega
    simp only [hlt, if_false]
    have hd : (cells ++ [x]).drop off = cells.drop off ++ [x] := by
      rw [List.drop_append_of_le_length (by omega)]
    rw [hd]
    have hl : (cells.drop off).length = len := by simp; omega
    rw [List.take_of_length_le (by simp; omega), List.take_of_length_le (by omega)]

theorem writeCell_length {α : Type} (cells : List α) (i : Nat) (x : α) (h : i ≤ cells.length) :
    i + 1 ≤ (writeCell cells i x).length ∧ cells.length ≤ (writeCell cells i x).length := by
  unfold writeCell
  by_cases hlt : i < cells.length
  · simp [hlt]; omega
  · simp [hlt]; omega

theorem sliceView_length {α : Type} (arrays : List (List α)) (s : Slice) (h : s.Fits arrays) :
    (sliceView arrays s).length = s.len := by
  unfold sliceView
  rw [List.length_take, List.length_drop]
  by_cases hc : 0 < s.cap
  · have := (h.2 hc).2
    omega
  · have := h.1
    omega

theorem sliceView_of_cap_zero {α : Type} (arrays : List (List α)) (s : Slice)
    (h : s.len ≤ s.cap) (hc : ¬ 0 < s.cap) : sliceView arrays s = [] := by
  have h0 : s.len = 0 := by omega
  simp [sliceView, h0]

theorem appendSlice_self {α : Type} (grow : Nat → Nat) (arrays : List (List α)) (s : Slice)
    (x : α) (hs : s.Fits arrays) :
    sliceView (appendSlice grow arrays s x).1 (appendSlice grow arrays s x).2
        = sliceView arrays s ++ [x] ∧
      (appendSlice grow arrays s x).2.Fits (appendSlice grow arrays s x).1 := by
  unfold appendSlice
  by_cases hlt : s.len < s.cap
  · have hc : 0 < s.cap := by omega
    obtain ⟨ha, hb⟩ := hs.2 hc
    have hcells : cellsAt (arrays.set s.arr (writeCell (cellsAt arrays s.arr) (s.off + s.len) x))
        s.arr = writeCell (cellsAt arrays s.arr) (s.off + s.len) x := by
      simp [cellsAt, List.getElem?_set_self ha]
    simp only [hlt, if_true]
    refine ⟨?_, ?_, ?_⟩
    · simp only [sliceView, hcells]
      exact writeCell_view _ _ _ _ hb
    · show s.len + 1 ≤ s.cap
      omega
    · intro _
      refine ⟨by simpa using ha, ?_⟩
      show s.off + (s.len + 1) ≤ _
      rw [hcells]
      have := (writeCell_length (cellsAt arrays s.arr) (s.off + s.len) x hb).1
      omega
  · simp only [hlt, if_false]
    have hlen := sliceView_length arrays s hs
    have hcells : cellsAt (arrays ++ [sliceView arrays s ++ [x]]) arrays.length
        = sliceView arrays s ++ [x] := by
      simp [cellsAt]
    refine ⟨?_, ?_, ?_⟩
    · simp only [sliceView] at hcells ⊢
      rw [hcells, List.drop_zero, List.take_of_length_le]
      simp only [sliceView] at hlen
      simp [hlen]
    · show s.len + 1 ≤ s.len + 1 + grow s.len
      omega
    · intro _
      refine ⟨by simp, ?_⟩
      show 0 + (s.len + 1) ≤ _
      rw [hcells]
      simp [hlen]

theorem appendSlice_other {α : Type} (grow : Nat → Nat) (arrays : List (List α)) (s t : Slice)
    (x : α) (ht : t.Fits arrays)
    (hne : 0 < s.cap → 0 < t.cap → s.arr ≠ t.arr) :
    sliceView (appendSlice grow arrays s x).1 t = sliceView arrays t ∧
      t.Fits (appendSlice grow arrays s x).1 ∧
      (0 < (appendSlice grow arrays s x).2.cap → 0 < t.cap →
        (appendSlice grow arrays s x).2.arr ≠ t.arr) := by
  by_cases htc : 0 < t.cap
  · obtain ⟨ha, hb⟩ := ht.2 htc
    have hcells : cellsAt (appendSlice grow arrays s x).1 t.arr = cellsAt arrays t.arr ∧
        arrays.length ≤ (appendSlice grow arrays s x).1.length ∧
        (appendSlice grow arrays s x).2.arr ≠ t.arr := by
      unfold appendSlice
      by_cases hlt : s.len < s.cap
      · have hc : 0 < s.cap := by omega
        have hd := hne hc htc
        simp only [hlt, if_true]
        refine ⟨?_, by simp, hd⟩
        simp [cellsAt, List.getElem?_set_ne hd]
      · simp only [hlt, if_false]
        refine ⟨?_, by simp, ?_⟩
        · simp [cellsAt, List.getElem?_append_left ha]
        · show arrays.length ≠ t.arr
          omega
    refine ⟨?_, ⟨ht.1, ?_⟩, fun _ _ => hcells.2.2⟩
    · simp only [sliceView, hcells.1]
    · intro _
      rw [hcells.1]
      exact ⟨by omega, hb⟩
  · refine ⟨?_, ⟨ht.1, fun h => absurd h htc⟩, fun _ h => absurd h htc⟩
    rw [sliceView_of_cap_zero _ t ht.1 htc, sliceView_of_cap_zero _ t ht.1 htc]

theorem Slice.zero_fits {α : Type} (arrays : List (List α)) : Slice.zero.Fits arrays :=
  ⟨Nat.le_refl _, fun h => absurd h (Nat.lt_irrefl _)⟩

theorem Memory.view_eq_abs_get (M : Memory Level Entry Error) (level : Level) :
    M.view level = M.abs.get level := by
  obtain ⟨arrays, hooks⟩ := M
  cases hooks with
  | none => simp [Memory.view, Memory.get, Memory.abs, LevelHooks.get, sliceView, Slice.zero]
  | some m =>
    cases hm : m level <;>
      simp [Memory.view, Memory.get, Memory.abs, LevelHooks.get, sliceView, Slice.zero, hm]

theorem memAdd_step [DecidableEq Level] (grow : Nat → Nat) (hook : Hook Level Entry Error)
    (arrays : List (List (Hook Level Entry Error))) (m : Level → Option Slice) (level : Level)
    (hsep : (⟨arrays, some m⟩ : Memory Level Entry Error).Separate) :
    let M : Memory Level Entry Error := ⟨arrays, some m⟩
    let M1 : Memory Level Entry Error :=
      ⟨(appendSlice grow arrays (M.get level) hook).1,
        some (fun k =>
          if k = level then some (appendSlice grow arrays (M.get level) hook).2 else m k)⟩
    M1.Separate ∧ M.abs.set level (M.abs.get level ++ [hook]) = some M1.abs := by
  intro M M1
  obtain ⟨hfit, hdis⟩ := hsep m rfl
  have hs : (M.get level).Fits arrays := by
    show ((m level).getD Slice.zero).Fits arrays
    cases hm : m level with
    | none => exact Slice.zero_fits arrays
    | some s => exact hfit level s hm
  have hne : ∀ k t, k ≠ level → m k = some t →
      0 < (M.get level).cap → 0 < t.cap → (M.get level).arr ≠ t.arr := by
    intro k t hk hkt hc htc
    have hm : ∃ s, m level = some s := by
      cases hm : m level with
      | none =>
        have : (M.get level).cap = 0 := by
          show ((m level).getD Slice.zero).cap = 0
          rw [hm]; rfl
        omega
      | some s => exact ⟨s, rfl⟩
    obtain ⟨s, hms⟩ := hm
    have hget : M.get level = s := by
      show (m level).getD Slice.zero = s
      rw [hms]; rfl
    rw [hget] at hc ⊢
    exact hdis level k s t (fun h => hk h.symm) hms hkt hc htc
  obtain ⟨hview, hfit1⟩ := appendSlice_self grow arrays (M.get level) hook hs
  refine ⟨?_, ?_⟩
  · intro m1 hm1
    cases hm1
    refine ⟨?_, ?_⟩
    · intro k s hk
      by_cases hkl : k = level
      · simp only [hkl, if_true, Option.some.injEq] at hk
        rw [← hk]
        exact hfit1
      · simp only [hkl, if_false] at hk
        exact (appendSlice_other grow arrays (M.get level) s hook (hfit k s hk)
          (hne k s hkl hk)).2.1
    · intro k1 k2 s1 s2 h12 h1 h2 hc1 hc2
      by_cases hk1 : k1 = level
      · have hk2 : ¬ k2 = level := fun h => h12 (hk1.trans h.symm)
        simp only [hk1, if_true, Option.some.injEq] at h1
        simp only [hk2, if_false] at h2
        rw [← h1] at hc1 ⊢
        exact (appendSlice_other grow arrays (M.get level) s2 hook (hfit k2 s2 h2)
          (hne k2 s2 hk2 h2)).2.2 hc1 hc2
      · simp only [hk1, if_false] at h1
        by_cases hk2 : k2 = level
        · simp only [hk2, if_true, Option.some.injEq] at h2
          rw [← h2] at hc2 ⊢
          exact fun h => (appendSlice_other grow arrays (M.get level) s1 hook (hfit k1 s1 h1)
            (hne k1 s1 hk1 h1)).2.2 hc2 hc1 h.symm
        · simp only [hk2, if_false] at h2
          exact hdis k1 k2 s1 s2 h12 h1 h2 hc1 hc2
  · show some (LevelHooks.made _) = some (LevelHooks.made _)
    congr 2
    funext k
    by_cases hkl : k = level
    · subst hkl
      simp only [if_true, Option.map_some']
      rw [hview]
      congr 2
      exact (Memory.view_eq_abs_get M k).symm
    · simp only [hkl, if_false]
      cases hk : m k with
      | none => rfl
      | some t =>
        simp only [Option.map_some']
        rw [(appendSlice_other grow arrays (M.get level) t hook (hfit k t hk)
          (hne k t hkl hk)).1]

theorem memAddLoop_refines [DecidableEq Level] (grow : Nat → Nat) (hook : Hook Level Entry Error)
    (ls : List Level) (M : Memory Level Entry Error) (hsep : M.Separate) :
    (memAddLoop grow hook ls M).map Memory.abs = addLoop hook ls M.abs ∧
      ∀ M1, memAddLoop grow hook ls M = some M1 → M1.Separate := by
  induction ls generalizing M with
  | nil =>
    refine ⟨rfl, ?_⟩
    intro M1 h
    cases h
    exact hsep
  | cons level rest ih =>
    obtain ⟨arrays, hooks⟩ := M
    cases hooks with
    | none =>
      refine ⟨by simp [memAddLoop, Memory.abs, addLoop, LevelHooks.set], ?_⟩
      intro M1 h
      simp [memAddLoop] at h
    | some m =>
      obtain ⟨hsep1, hset⟩ := memAdd_step grow hook arrays m level hsep
      obtain ⟨h1, h2⟩ := ih _ hsep1
      refine ⟨?_, ?_⟩
      · simp only [memAddLoop, addLoop, hset]
        exact h1
      · intro M1 hM1
        simp only [memAddLoop] at hM1
        exact h2 M1 hM1

theorem Memory.Add_refines [DecidableEq Level] (grow : Nat → Nat)
    (M : Memory Level Entry Error) (hook : Hook Level Entry Error) (hsep : M.Separate) :
    (M.Add grow hook).map Memory.abs = M.abs.Add hook ∧
      ∀ M1, M.Add grow hook = some M1 → M1.Separate :=
  memAddLoop_refines grow hook hook.Levels M hsep

theorem Memory.abs_made_iff (M : Memory Level Entry Error) :
    M.hooks ≠ none ↔ ∃ m, M.abs = .made m := by
  obtain ⟨arrays, hooks⟩ := M
  cases hooks <;> simp [Memory.abs]

theorem Memory.Add_view [DecidableEq Level] (grow : Nat → Nat)
    (M M1 : Memory Level Entry Error) (hook : Hook Level Entry Error) (hsep : M.Separate)
    (h : M.Add grow hook = some M1) :
    M1.Separate ∧ M.abs.Add hook = some M1.abs ∧
      ∀ l, M1.view l = M.view l ++ List.replicate (hook.Levels.count l) hook := by
  obtain ⟨href, hpres⟩ := Memory.Add_refines grow M hook hsep
  rw [h] at href
  have habs : M.abs.Add hook = some M1.abs := href.symm
  refine ⟨hpres M1 h, habs, ?_⟩
  intro l
  rw [Memory.view_eq_abs_get, Memory.view_eq_abs_get]
  exact Add_get M.abs M1.abs hook habs l

theorem Memory.Add_some [DecidableEq Level] (grow : Nat → Nat)
    (M : Memory Level Entry Error) (hook : Hook Level Entry Error) (hsep : M.Separate)
    (hmade : M.hooks ≠ none) :
    ∃ M1, M.Add grow hook = some M1 ∧ M1.hooks ≠ none := by
  obtain ⟨m, hm⟩ := (Memory.abs_made_iff M).1 hmade
  obtain ⟨m1, hadd, _⟩ := Add_made hook m
  have href := (Memory.Add_refines grow M hook hsep).1
  rw [hm, hadd] at href
  cases hM : M.Add grow hook with
  | none => simp [hM] at href
  | some M1 =>
    refine ⟨M1, rfl, ?_⟩
    rw [hM] at href
    simp only [Option.map_some', Option.some.injEq] at href
    exact (Memory.abs_made_iff M1).2 ⟨m1, href⟩

theorem memAddAll_refines [DecidableEq Level] (grow : Nat → Nat)
    (hs : List (Hook Level Entry Error)) (M : Memory Level Entry Error) (hsep : M.Separate) :
    (memAddAll grow hs M).map Memory.abs = addAll hs M.abs ∧
      ∀ M1, memAddAll grow hs M = some M1 → M1.Separate := by
  induction hs generalizing M with
  | nil =>
    refine ⟨rfl, ?_⟩
    intro M1 h
    cases h
    exact hsep
  | cons hook rest ih =>
    obtain ⟨href, hpres⟩ := Memory.Add_refines grow M hook hsep
    cases hM : M.Add grow hook with
    | none =>
      rw [hM] at href
      refine ⟨?_, ?_⟩
      · simp only [memAddAll, addAll, hM, ← href]
        rfl
      · intro M1 h
        simp [memAddAll, hM] at h
    | some M2 =>
      rw [hM] at href
      obtain ⟨h1, h2⟩ := ih M2 (hpres M2 hM)
      refine ⟨?_, ?_⟩
      · simp only [memAddAll, addAll, hM, ← href, Option.map_some']
        exact h1
      · intro M1 h
        simp only [memAddAll, hM] at h
        exact h2 M1 h

theorem memAddAll_some [DecidableEq Level] (grow : Nat → Nat)
    (hs : List (Hook Level Entry Error)) (M : Memory Level Entry Error) (hsep : M.Separate)
    (hmade : M.hooks ≠ none) :
    ∃ M1, memAddAll grow hs M = some M1 ∧ M1.Separate ∧ M1.hooks ≠ none ∧
      ∀ l, ∃ added, M1.view l = M.view l ++ added := by
  induction hs generalizing M with
  | nil => exact ⟨M, rfl, hsep, hmade, fun l => ⟨[], by simp⟩⟩
  | cons hook rest ih =>
    obtain ⟨M2, hadd, hmade2⟩ := Memory.Add_some grow M hook hsep hmade
    obtain ⟨hsep2, _, hview2⟩ := Memory.Add_view grow M M2 hook hsep hadd
    obtain ⟨M1, hall, hsep1, hmade1, hview1⟩ := ih M2 hsep2 hmade2
    refine ⟨M1, by simp only [memAddAll, hadd, hall], hsep1, hmade1, ?_⟩
    intro l
    obtain ⟨added, ha⟩ := hview1 l
    exact ⟨List.replicate (hook.Levels.count l) hook ++ added, by
      rw [ha, hview2 l, List.append_assoc]⟩

theorem Memory.Fire_eq_abs (M : Memory Level Entry Error) (level : Level) (entry : Entry) :
    M.Fire level entry = M.abs.Fire level entry := by
  unfold Memory.Fire LevelHooks.Fire
  rw [Memory.view_eq_abs_get]

theorem Memory.Fire_invoked_view (M : Memory Level Entry Error) (level : Level) (entry : Entry) :
    (M.Fire level entry).invoked = M.view level := by
  rw [Memory.Fire_eq_abs, Fire_invoked, Memory.view_eq_abs_get]

theorem Memory.empty_separate : (Memory.empty : Memory Level Entry Error).Separate := by
  intro m hm
  cases hm
  exact ⟨fun k s h => (by cases h), fun k1 k2 s1 s2 _ h _ _ _ => (by cases h)⟩

theorem sampleMemory_separate : sampleMemory.Separate := by
  intro m hm
  cases hm
  have key : ∀ (k : Nat) (s : Slice),
      (if k = 2 then some (⟨0, 0, 3, 4⟩ : Slice)
        else if k = 3 then some ⟨0, 0, 0, 0⟩
        else if k = 4 then some ⟨1, 0, 1, 1⟩
        else none) = some s →
      (k = 2 ∧ s = ⟨0, 0, 3, 4⟩) ∨ (k = 3 ∧ s = ⟨0, 0, 0, 0⟩) ∨ (k = 4 ∧ s = ⟨1, 0, 1, 1⟩) := by
    intro k s hk
    split at hk
    · cases hk
      exact Or.inl ⟨by assumption, rfl⟩
    · split at hk
      · cases hk
        exact Or.inr (Or.inl ⟨by assumption, rfl⟩)
      · split at hk
        · cases hk
          exact Or.inr (Or.inr ⟨by assumption, rfl⟩)
        · cases hk
  refine ⟨?_, ?_⟩
  · intro k s hk
    rcases key k s hk with ⟨_, rfl⟩ | ⟨_, rfl⟩ | ⟨_, rfl⟩
    · exact ⟨by decide, fun _ => ⟨by decide, by decide⟩⟩
    · exact ⟨by decide, fun h => absurd h (by decide)⟩
    · exact ⟨by decide, fun _ => ⟨by decide, by decide⟩⟩
  · intro k1 k2 s1 s2 hne h1 h2 hc1 hc2
    rcases key k1 s1 h1 with ⟨rfl, rfl⟩ | ⟨rfl, rfl⟩ | ⟨rfl, rfl⟩ <;>
      rcases key k2 s2 h2 with ⟨rfl, rfl⟩ | ⟨rfl, rfl⟩ | ⟨rfl, rfl⟩ <;>
      simp_all

theorem hookSees_ne_hookB : hookSees ≠ hookB := by
  intro h
  have h2 := congrArg (fun k => (k.Fire ["x"]).2) h
  simp [hookSees, hookB] at h2

theorem hookA_ne_hookWE : hookA ≠ hookWE := by
  intro h
  have h2 := congrArg (fun k => (k.Fire []).2) h
  simp [hookA, hookWE] at h2

theorem hookA_ne_hookB : hookA ≠ hookB := by
  intro h
  have h2 := congrArg (fun k => (k.Fire []).2) h
  simp [hookA, hookB] at h2

/-! ## Registration in memory -/

/-- C5 fails as stated: in the registry `LevelHooks{error: arr[0:1], warn: arr[0:3]}`
over `arr = {hookA, hookB, hookC}`, Add(hookSees), which declares error only, appends
in place and overwrites the second cell of the array: the sequence under warn, a
level not declared, changes from hookA, hookB, hookC to hookA, hookSees, hookC. -/
theorem Add_shared_array_counterexample :
    ∃ M1, aliasedMemory.Add sampleGrow hookSees = some M1 ∧ 3 ∉ hookSees.Levels ∧
      aliasedMemory.view 3 = [hookA, hookB, hookC] ∧
      M1.view 3 = [hookA, hookSees, hookC] ∧ M1.view 3 ≠ aliasedMemory.view 3 :=
  ⟨_, rfl, by decide, rfl, rfl, fun h =>
    hookSees_ne_hookB
      (List.cons.inj (List.cons.inj (h : [hookA, hookSees, hookC] = [hookA, hookB, hookC])).2).1⟩

/-- C5 amended: postcondition of Add on a registry whose slices stored under
different keys do not share a backing array.  On a map that was made the call
completes, and whenever the call completes the sequence stored under a level
afterwards is the sequence stored before followed by one copy of the hook for each
occurrence of the level in Levels(): the old sequence with the hook appended when
the level is declared once, the old sequence itself when the level is not
declared.  The registry after the call again shares no backing array, so this holds
for every registry built from make(LevelHooks) by Add calls. -/
theorem Add_appends_per_occurrence [DecidableEq Level] (grow : Nat → Nat)
    (M : Memory Level Entry Error) (hook : Hook Level Entry Error) (hsep : M.Separate) :
    (M.hooks ≠ none → ∃ M1, M.Add grow hook = some M1) ∧
    (∀ M1, M.Add grow hook = some M1 → M1.Separate ∧ ∀ l,
      M1.view l = M.view l ++ List.replicate (hook.Levels.count l) hook ∧
      (hook.Levels.count l = 1 → M1.view l = M.view l ++ [hook]) ∧
      (l ∉ hook.Levels → M1.view l = M.view l)) := by
  constructor
  · intro hmade
    obtain ⟨M1, h, _⟩ := Memory.Add_some grow M hook hsep hmade
    exact ⟨M1, h⟩
  · intro M1 h
    obtain ⟨hsep1, _, hview⟩ := Memory.Add_view grow M M1 hook hsep h
    refine ⟨hsep1, ?_⟩
    intro l
    refine ⟨hview l, ?_, ?_⟩
    · intro h1
      rw [hview l, h1]
      rfl
    · intro hl
      rw [hview l, List.count_eq_zero_of_not_mem hl]
      simp

/-- Adding hookWE, which declares warn and error, to the sample memory: it is
appended in place after the three hooks under error, becomes the only hook under
warn, and info keeps its sequence. -/
theorem Add_appends_per_occurrence_witness :
    ∃ M1, sampleMemory.Add sampleGrow hookWE = some M1 ∧
      M1.view 2 = [hookA, hookB, hookC, hookWE] ∧ M1.view 3 = [hookWE] ∧
      M1.view 4 = [hookWE] ∧ M1.view 5 = [] := by
  obtain ⟨M1, hM1⟩ :=
    (Add_appends_per_occurrence sampleGrow sampleMemory hookWE sampleMemory_separate).1
      (by simp [sampleMemory])
  have h :=
    ((Add_appends_per_occurrence sampleGrow sampleMemory hookWE sampleMemory_separate).2
      M1 hM1).2
  refine ⟨M1, hM1, ?_, ?_, ?_, ?_⟩
  · rw [(h 2).1]; rfl
  · rw [(h 3).1]; rfl
  · rw [(h 4).1]; rfl
  · rw [(h 5).1]; rfl

/-- C7 fails as stated: in the registry `LevelHooks{error: s, warn: s}` with
`s = make([]Hook, 0, 2)`, Add(hookA) is called before Add(hookWE) and both declare
error; the second call, appending under warn first, overwrites the cell that holds
hookA, and a later Fire at error invokes hookWE twice and hookA not at all. -/
theorem Add_order_shared_array_counterexample :
    ∃ M1 M2, sharedEmptyMemory.Add sampleGrow hookA = some M1 ∧
      M1.Add sampleGrow hookWE = some M2 ∧
      2 ∈ hookA.Levels ∧ 2 ∈ hookWE.Levels ∧
      (M1.Fire 2 []).invoked = [hookA] ∧
      (M2.Fire 2 []).invoked = [hookWE, hookWE] ∧ hookA ∉ (M2.Fire 2 []).invoked :=
  ⟨_, _, rfl, rfl, by decide, by decide, rfl, rfl, fun h => by
    have h2 : hookA ∈ [hookWE, hookWE] := h
    simp only [List.mem_cons, List.mem_singleton, List.not_mem_nil, or_false, or_self] at h2
    exact hookA_ne_hookWE h2⟩

/-- C7 amended: registration order is preserved on a registry whose slices stored
under different keys do not share a backing array, such as every registry built
from make(LevelHooks) by Add calls.  Starting from such a map, let Add(h1) be
followed by any Add calls, then Add(h2), then any further Add calls, with both hooks
declaring level L.  All these calls complete; under L the first registration
appends copies of h1 (at least one), the second appends copies of h2 (at least one)
behind them, and nothing stored is moved.  Every later Fire(L, e) invokes the stored
sequence, so each invocation of h1 that stems from the first registration precedes
each invocation of h2 that stems from the second. -/
theorem Fire_registration_order [DecidableEq Level] (grow : Nat → Nat)
    (M : Memory Level Entry Error) (hsep : M.Separate) (hmade : M.hooks ≠ none)
    (h1 h2 : Hook Level Entry Error) (mid post : List (Hook Level Entry Error)) (L : Level)
    (hL1 : L ∈ h1.Levels) (hL2 : L ∈ h2.Levels) :
    ∃ M1 M2 M3 M4 between after,
      M.Add grow h1 = some M1 ∧ memAddAll grow mid M1 = some M2 ∧
      M2.Add grow h2 = some M3 ∧ memAddAll grow post M3 = some M4 ∧
      M1.view L = M.view L ++ List.replicate (h1.Levels.count L) h1 ∧
      M2.view L = M1.view L ++ between ∧
      M3.view L = M2.view L ++ List.replicate (h2.Levels.count L) h2 ∧
      M4.view L = M3.view L ++ after ∧
      0 < h1.Levels.count L ∧ 0 < h2.Levels.count L ∧
      ∀ (e : Entry), (M4.Fire L e).invoked = M4.view L ∧
        ∀ (i j : Nat),
          (M.view L).length ≤ i → i < (M1.view L).length →
          (M2.view L).length ≤ j → j < (M3.view L).length →
          i < j ∧ (M4.Fire L e).invoked[i]? = some h1 ∧
            (M4.Fire L e).invoked[j]? = some h2 := by
  obtain ⟨M1, ha1, hm1⟩ := Memory.Add_some grow M h1 hsep hmade
  obtain ⟨hs1, _, hg1⟩ := Memory.Add_view grow M M1 h1 hsep ha1
  obtain ⟨M2, ha2, hs2, hm2, hg2⟩ := memAddAll_some grow mid M1 hs1 hm1
  obtain ⟨M3, ha3, hm3⟩ := Memory.Add_some grow M2 h2 hs2 hm2
  obtain ⟨hs3, _, hg3⟩ := Memory.Add_view grow M2 M3 h2 hs2 ha3
  obtain ⟨M4, ha4, _, _, hg4⟩ := memAddAll_some grow post M3 hs3 hm3
  obtain ⟨between, hb⟩ := hg2 L
  obtain ⟨after, hafter⟩ := hg4 L
  have hc1 : 0 < h1.Levels.count L := List.count_pos_iff.2 hL1
  have hc2 : 0 < h2.Levels.count L := List.count_pos_iff.2 hL2
  refine ⟨M1, M2, M3, M4, between, after, ha1, ha2, ha3, ha4, hg1 L, hb, hg3 L, hafter,
    hc1, hc2, ?_⟩
  intro e
  refine ⟨Memory.Fire_invoked_view _ L e, ?_⟩
  intro i j hi1 hi2 hj1 hj2
  have hlen1 : (M1.view L).length = (M.view L).length + h1.Levels.count L := by
    rw [hg1 L]; simp
  have hlen2 : (M2.view L).length = (M1.view L).length + between.length := by
    rw [hb]; simp
  have hlen3 : (M3.view L).length = (M2.view L).length + h2.Levels.count L := by
    rw [hg3 L]; simp
  refine ⟨by omega, ?_, ?_⟩
  · rw [Memory.Fire_invoked_view, hafter, hg3 L, hb, hg1 L]
    rw [List.append_assoc _ between, List.append_assoc _ (between ++ _)]
    exact getElem?_block _ _ _ _ _ hi1 (by omega)
  · rw [Memory.Fire_invoked_view, hafter, hg3 L]
    exact getElem?_block _ _ _ _ _ hj1 (by omega)

/-- Into the memory after make(LevelHooks): Add(hookA), Add(hookWE), Add(hookB),
Add(hookC); all four declare error.  Fire at error invokes hookA at position 0 and
hookB at position 2. -/
theorem Fire_registration_order_witness :
    ∃ M4, memAddAll sampleGrow [hookA, hookWE, hookB, hookC] Memory.empty = some M4 ∧
      (M4.Fire 2 []).invoked = [hookA, hookWE, hookB, hookC] ∧
      (M4.Fire 2 []).invoked[0]? = some hookA ∧ (M4.Fire 2 []).invoked[2]? = some hookB := by
  obtain ⟨M1, M2, M3, M4, between, after, a1, a2, a3, a4, g1, g2, g3, g4, c1, c2, hfire⟩ :=
    Fire_registration_order sampleGrow Memory.empty Memory.empty_separate
      (by simp [Memory.empty]) hookA hookB [hookWE] [hookC] 2 (by decide) (by decide)
  cases a1
  cases a2
  cases a3
  cases a4
  exact ⟨_, rfl, rfl, ((hfire []).2 0 2 (by decide) (by decide) (by decide) (by decide)).2⟩

/-- C8 amended: Add is additive, not idempotent.  For a map that was made, whose
slices stored under different keys do not share a backing array, and a hook that
declares level L, with c at least 1 the number of occurrences of L in Levels(), each
Add appends c entries for the hook under L, so two Adds append twice c entries and
the registry after two Adds differs from the registry after one.  When nothing was
stored under L before, every Fire(L, e) invokes the hook c times after one Add and
twice c times after two, and nothing else; with L declared once that is exactly two
invocations. -/
theorem Add_twice_additive [DecidableEq Level] (grow : Nat → Nat)
    (M : Memory Level Entry Error) (hsep : M.Separate) (hmade : M.hooks ≠ none)
    (hook : Hook Level Entry Error) (L : Level) (hL : L ∈ hook.Levels) :
    ∃ M1 M2, M.Add grow hook = some M1 ∧ M1.Add grow hook = some M2 ∧
      0 < hook.Levels.count L ∧
      M1.view L = M.view L ++ List.replicate (hook.Levels.count L) hook ∧
      M2.view L = M.view L ++ List.replicate (2 * hook.Levels.count L) hook ∧
      M2.view L ≠ M1.view L ∧ M2.abs ≠ M1.abs ∧
      (∀ e : Entry, (M1.Fire L e).invoked = M1.view L ∧ (M2.Fire L e).invoked = M2.view L) ∧
      (M.view L = [] → ∀ e : Entry,
        (M1.Fire L e).invoked = List.replicate (hook.Levels.count L) hook ∧
        (M2.Fire L e).invoked = List.replicate (2 * hook.Levels.count L) hook ∧
        (hook.Levels.count L = 1 → (M2.Fire L e).invoked = [hook, hook])) := by
  obtain ⟨M1, ha1, hm1⟩ := Memory.Add_some grow M hook hsep hmade
  obtain ⟨hs1, _, hg1⟩ := Memory.Add_view grow M M1 hook hsep ha1
  obtain ⟨M2, ha2, _⟩ := Memory.Add_some grow M1 hook hs1 hm1
  obtain ⟨_, _, hg2⟩ := Memory.Add_view grow M1 M2 hook hs1 ha2
  have hc : 0 < hook.Levels.count L := List.count_pos_iff.2 hL
  have h2 : M2.view L = M.view L ++ List.replicate (2 * hook.Levels.count L) hook := by
    rw [hg2 L, hg1 L, List.append_assoc, List.append_replicate_replicate, two_mul]
  have hne : M2.view L ≠ M1.view L := by
    intro heq
    have hlen := congrArg List.length heq
    simp only [hg2 L, List.length_append, List.length_replicate] at hlen
    omega
  refine ⟨M1, M2, ha1, ha2, hc, hg1 L, h2, hne, ?_, ?_, ?_⟩
  · intro heq
    apply hne
    rw [Memory.view_eq_abs_get, Memory.view_eq_abs_get, heq]
  · intro e
    exact ⟨Memory.Fire_invoked_view _ L e, Memory.Fire_invoked_view _ L e⟩
  · intro hnil e
    rw [Memory.Fire_invoked_view, Memory.Fire_invoked_view, h2, hg1 L, hnil]
    refine ⟨rfl, rfl, ?_⟩
    intro h1
    rw [h1]
    rfl

/-- Calling Add(hookA) twice on the memory after make(LevelHooks): two entries
under error, and Fire at error invokes hookA twice, against once after a single
Add. -/
theorem Add_twice_additive_witness :
    ∃ M1 M2, Memory.empty.Add sampleGrow hookA = some M1 ∧ M1.Add sampleGrow hookA = some M2 ∧
      M2.abs ≠ M1.abs ∧ (M1.Fire 2 []).invoked = [hookA] ∧
      (M2.Fire 2 []).invoked = [hookA, hookA] := by
  obtain ⟨M1, M2, a1, a2, _, _, _, _, hne, _, hfire⟩ :=
    Add_twice_additive sampleGrow Memory.empty Memory.empty_separate (by simp [Memory.empty])
      hookA 2 (by decide)
  exact ⟨M1, M2, a1, a2, hne, (hfire rfl []).1, (hfire rfl []).2.2 rfl⟩

/-! ## The report, level isolation and the order of registration in memory -/

theorem Memory.Fire_records_thread (M : Memory Level Entry Error) (level : Level) (entry : Entry) :
    (M.Fire level entry).records = (thread (M.view level) entry).filterMap Call.failure := by
  rw [Memory.Fire_eq_abs, Fire_records, Memory.view_eq_abs_get]

theorem addAll_pair_comm [DecidableEq Level] (r : LevelHooks Level Entry Error)
    (h1 h2 : Hook Level Entry Error) (hdis : ∀ l, l ∈ h1.Levels → l ∉ h2.Levels) :
    addAll [h1, h2] r = addAll [h2, h1] r := by
  cases r with
  | made m =>
    obtain ⟨m12, ha, hk12⟩ := addAll_pair_made h1 h2 m
    obtain ⟨m21, hb, hk21⟩ := addAll_pair_made h2 h1 m
    rw [ha, hb]
    have hfun : m12 = m21 := by
      funext k
      rw [hk12 k, hk21 k]
      by_cases hA : k ∈ h1.Levels
      · have hB : k ∉ h2.Levels := hdis k hA
        simp [hA, hB]
      · by_cases hB : k ∈ h2.Levels <;> simp [hA, hB]
    rw [hfun]
  | nilMap =>
    simp only [addAll, LevelHooks.Add, addLoop_nilMap]
    by_cases e1 : h1.Levels = [] <;> by_cases e2 : h2.Levels = [] <;>
      simp [e1, e2, addLoop_nilMap]

theorem joinedMemory_separate : joinedMemory.Separate := by
  intro m hm
  cases hm
  have key : ∀ (k : Nat) (s : Slice),
      (if k = 2 then some (⟨0, 0, 4, 4⟩ : Slice) else none) = some s →
        k = 2 ∧ s = ⟨0, 0, 4, 4⟩ := by
    intro k s hk
    split at hk
    · cases hk
      exact ⟨by assumption, rfl⟩
    · cases hk
  refine ⟨?_, ?_⟩
  · intro k s hk
    obtain ⟨_, rfl⟩ := key k s hk
    exact ⟨by decide, fun _ => ⟨by decide, by decide⟩⟩
  · intro k1 k2 s1 s2 hne h1 h2 _ _
    exact absurd ((key k1 s1 h1).1.trans (key k2 s2 h2).1.symm) hne

/-- C14 fails as stated: in the registry `LevelHooks{error: arr[0:1], 99: arr[0:3]}`
over `arr = {hookB, hookA, hookB}`, whose hooks do not change the entry, Fire at 99
reports the record of hookA.  Add(hookFar), which declares error and 99 and does not
change the entry either, overwrites the cell of hookA when it appends under error:
afterwards Fire at 99 reports nothing, so the record of a hook registered earlier
is gone. -/
theorem Add_earlier_records_counterexample :
    ∃ M1, aliasedPureMemory.Add sampleGrow hookFar = some M1 ∧
      (∀ e : List String, (hookA.Fire e).1 = e ∧ (hookB.Fire e).1 = e ∧
        (hookFar.Fire e).1 = e) ∧
      aliasedPureMemory.view 99 = [hookB, hookA, hookB] ∧
      (aliasedPureMemory.Fire 99 []).records = [⟨hookA, "disk full"⟩] ∧
      M1.view 99 = [hookB, hookFar, hookB, hookFar] ∧
      (M1.Fire 99 []).records = [] :=
  ⟨_, rfl, fun _ => ⟨rfl, rfl, rfl⟩, rfl, rfl, rfl, rfl⟩

/-- C14 amended: Fire distributes over concatenation.  When the hooks stored under L
do not change the entry and the stored sequence is xs followed by ys, the records
reported by Fire(L, e) are the records reported for xs followed by the records
reported for ys.  In a registry whose slices stored under different keys do not
share a backing array, an Add appends to the stored sequence, so the records after
it are the records before it followed by those of the calls of the appended hook. -/
theorem Fire_records_append [DecidableEq Level] (grow : Nat → Nat)
    (M : Memory Level Entry Error) (L : Level) (e : Entry)
    (hpure : ∀ hook ∈ M.view L, ∀ e1 : Entry, (hook.Fire e1).1 = e1) :
    (∀ Mx My : Memory Level Entry Error, M.view L = Mx.view L ++ My.view L →
      (M.Fire L e).records = (Mx.Fire L e).records ++ (My.Fire L e).records) ∧
    (M.Separate → ∀ (hook : Hook Level Entry Error) (M1 : Memory Level Entry Error),
      M.Add grow hook = some M1 →
      (M1.Fire L e).records
        = (M.Fire L e).records
          ++ (thread (List.replicate (hook.Levels.count L) hook) e).filterMap
              Call.failure) := by
  constructor
  · intro Mx My hcat
    have hx : threadEnd (Mx.view L) e = e :=
      threadEnd_of_unchanged _ _ (fun k hk => hpure k (by rw [hcat]; simp [hk]))
    rw [Memory.Fire_records_thread, Memory.Fire_records_thread, Memory.Fire_records_thread, hcat, thread_append,
      hx, List.filterMap_append]
  · intro hsep hook M1 hadd
    have hx : threadEnd (M.view L) e = e := threadEnd_of_unchanged _ _ hpure
    rw [Memory.Fire_records_thread, Memory.Fire_records_thread,
      (Memory.Add_view grow M M1 hook hsep hadd).2.2 L, thread_append, hx,
      List.filterMap_append]

/-- The hooks of joinedMemory under error leave the entry alone, and they are those of
leftMemory followed by those of rightMemory: the report is the record of hookA from
the left part followed by the record of hookA from the right part; after Add(hookA)
a third record of hookA follows them. -/
theorem Fire_records_append_witness :
    (joinedMemory.Fire 2 []).records
        = (leftMemory.Fire 2 []).records ++ (rightMemory.Fire 2 []).records ∧
      (joinedMemory.Fire 2 []).records = [⟨hookA, "disk full"⟩, ⟨hookA, "disk full"⟩] ∧
      ∃ M1, joinedMemory.Add sampleGrow hookA = some M1 ∧
        (M1.Fire 2 []).records
          = [⟨hookA, "disk full"⟩, ⟨hookA, "disk full"⟩, ⟨hookA, "disk full"⟩] := by
  have h := Fire_records_append sampleGrow joinedMemory 2 [] (by
      intro hook hh e1
      have hh2 : hook ∈ [hookA, hookB, hookSees, hookA] := hh
      simp only [List.mem_cons, List.mem_singleton, List.not_mem_nil, or_false] at hh2
      rcases hh2 with rfl | rfl | rfl | rfl <;> rfl)
  refine ⟨h.1 leftMemory rightMemory rfl, rfl, _, rfl, ?_⟩
  rw [h.2 joinedMemory_separate hookA _ rfl]
  rfl

/-- C15 fails as stated: in the registry `LevelHooks{error: arr[0:1], warn: arr[0:3]}`
over `arr = {hookA, hookB, hookC}`, Add(hookSees), which does not declare warn,
changes the outcome of Fire at warn: hookSees is invoked in the place of hookB and
the report has a third record. -/
theorem Add_other_level_counterexample :
    ∃ M1, aliasedMemory.Add sampleGrow hookSees = some M1 ∧ 3 ∉ hookSees.Levels ∧
      (aliasedMemory.Fire 3 ["x"]).invoked = [hookA, hookB, hookC] ∧
      (aliasedMemory.Fire 3 ["x"]).hookFailures
        = some [⟨hookA, "disk full"⟩, ⟨hookC, "timeout"⟩] ∧
      (M1.Fire 3 ["x"]).invoked = [hookA, hookSees, hookC] ∧
      (M1.Fire 3 ["x"]).hookFailures
        = some [⟨hookA, "disk full"⟩, ⟨hookSees, "marked"⟩, ⟨hookC, "timeout"⟩] ∧
      M1.Fire 3 ["x"] ≠ aliasedMemory.Fire 3 ["x"] :=
  ⟨_, rfl, by decide, rfl, rfl, rfl, rfl, fun h => by
    have h2 := congrArg (fun s => s.records.length) h
    exact absurd h2 (by decide)⟩

/-- C15 amended: level isolation.  Two registries that store the same sequence under
L give the same run of Fire(L, e): the same calls, the same report, the same entry
after it, whatever they store under the other levels.  In a registry whose slices
stored under different keys do not share a backing array, an Add of a hook that
does not declare L leaves the run of Fire(L, e) as it was. -/
theorem Fire_level_isolation [DecidableEq Level] (grow : Nat → Nat)
    (M1 M2 : Memory Level Entry Error) (L : Level) (e : Entry) (h : M1.view L = M2.view L) :
    M1.Fire L e = M2.Fire L e ∧
    (M1.Separate → ∀ (hook : Hook Level Entry Error) (M : Memory Level Entry Error),
      L ∉ hook.Levels → M1.Add grow hook = some M → M.Fire L e = M1.Fire L e) := by
  constructor
  · unfold Memory.Fire
    rw [h]
  · intro hsep hook M hL hadd
    have hg := (Memory.Add_view grow M1 M hook hsep hadd).2.2 L
    rw [List.count_eq_zero_of_not_mem hL] at hg
    unfold Memory.Fire
    rw [hg]
    simp

/-- The memories sampleMemory and errorOnlyMemory store the same three hooks under
error, in different arrays, and differ under warn and info: Fire at error runs
alike on both.  After Add(hookInfo), which does not declare error, sampleMemory runs
Fire at error as before. -/
theorem Fire_level_isolation_witness :
    sampleMemory.view 4 = [hookWE] ∧ errorOnlyMemory.view 4 = [] ∧
      sampleMemory.Fire 2 [] = errorOnlyMemory.Fire 2 [] ∧
      ∃ M, sampleMemory.Add sampleGrow hookInfo = some M ∧
        M.view 4 = [hookWE, hookInfo] ∧ M.Fire 2 [] = sampleMemory.Fire 2 [] := by
  have h := Fire_level_isolation sampleGrow sampleMemory errorOnlyMemory 2 [] rfl
  exact ⟨rfl, rfl, h.1, _, rfl, rfl, h.2 sampleMemory_separate hookInfo _ (by decide) rfl⟩

/-- C16 fails as stated: in the registry `LevelHooks{error: s, warn: s}` with
`s = append(make([]Hook, 0, 2), hookA)`, hookB declares error only and hookWarn
declares warn only, so their Levels() lists share no level; Add(hookB) then
Add(hookWarn) leaves hookA, hookWarn under both levels, Add(hookWarn) then
Add(hookB) leaves hookA, hookB under both: the two orders give different
registries. -/
theorem Add_commutes_shared_array_counterexample :
    (∀ l, l ∈ hookB.Levels → l ∉ hookWarn.Levels) ∧
    ∃ Mbw Mwb, memAddAll sampleGrow [hookB, hookWarn] sharedOneMemory = some Mbw ∧
      memAddAll sampleGrow [hookWarn, hookB] sharedOneMemory = some Mwb ∧
      Mbw.view 2 = [hookA, hookWarn] ∧ Mbw.view 3 = [hookA, hookWarn] ∧
      Mwb.view 2 = [hookA, hookB] ∧ Mwb.view 3 = [hookA, hookB] ∧
      Mbw.view 2 ≠ Mwb.view 2 :=
  ⟨by decide, _, _, rfl, rfl, rfl, rfl, rfl, rfl, fun h => by
    have h2 := congrArg (fun l => l.map (fun k => k.Levels))
      (h : [hookA, hookWarn] = [hookA, hookB])
    exact absurd h2 (by decide)⟩

/-- C16 amended: Add calls commute when the declared levels do not overlap, on a
registry whose slices stored under different keys do not share a backing array.
For every such registry and hooks h1, h2 whose Levels() lists share no level,
Add(h1) then Add(h2) has the same outcome as Add(h2) then Add(h1): on a map that was
made both complete and every level maps to the same sequence afterwards.  For hookA
and hookB, which are distinct and both declare error, the two orders give different
registries from the one made by make(LevelHooks), and Fire at error tells them
apart. -/
theorem Add_commutes_on_disjoint_levels [DecidableEq Level] (grow : Nat → Nat)
    (M : Memory Level Entry Error) (hsep : M.Separate)
    (h1 h2 : Hook Level Entry Error) (hdis : ∀ l, l ∈ h1.Levels → l ∉ h2.Levels) :
    (memAddAll grow [h1, h2] M).map Memory.abs = (memAddAll grow [h2, h1] M).map Memory.abs ∧
    (M.hooks ≠ none → ∃ M12 M21, memAddAll grow [h1, h2] M = some M12 ∧
      memAddAll grow [h2, h1] M = some M21 ∧ M12.abs = M21.abs ∧
      ∀ l, M12.view l = M21.view l) ∧
    (hookA ≠ hookB ∧ 2 ∈ hookA.Levels ∧ 2 ∈ hookB.Levels ∧
      ∃ Mab Mba, memAddAll sampleGrow [hookA, hookB] Memory.empty = some Mab ∧
        memAddAll sampleGrow [hookB, hookA] Memory.empty = some Mba ∧
        Mab.abs ≠ Mba.abs ∧
        (Mab.Fire 2 []).invoked = [hookA, hookB] ∧
        (Mba.Fire 2 []).invoked = [hookB, hookA]) := by
  have hcomm : (memAddAll grow [h1, h2] M).map Memory.abs
      = (memAddAll grow [h2, h1] M).map Memory.abs := by
    rw [(memAddAll_refines grow [h1, h2] M hsep).1, (memAddAll_refines grow [h2, h1] M hsep).1]
    exact addAll_pair_comm M.abs h1 h2 hdis
  refine ⟨hcomm, ?_, hookA_ne_hookB, by decide, by decide, _, _, rfl, rfl, ?_, rfl, rfl⟩
  · intro hmade
    obtain ⟨M12, ha, _⟩ := memAddAll_some grow [h1, h2] M hsep hmade
    obtain ⟨M21, hb, _⟩ := memAddAll_some grow [h2, h1] M hsep hmade
    rw [ha, hb] at hcomm
    have habs : M12.abs = M21.abs := Option.some.inj hcomm
    refine ⟨M12, M21, ha, hb, habs, ?_⟩
    intro l
    rw [Memory.view_eq_abs_get, Memory.view_eq_abs_get, habs]
  · intro h
    have h2 := congrArg (fun r => (LevelHooks.get r 2).head?) h
    have h3 : some hookA = some hookB := h2
    exact hookA_ne_hookB (Option.some.inj h3)

/-- The hook hookA declares error only and hookInfo declares info only: added to the
sample memory in either order they leave the same sequence under every level. -/
theorem Add_commutes_on_disjoint_levels_witness :
    ∃ M12 M21, memAddAll sampleGrow [hookA, hookInfo] sampleMemory = some M12 ∧
      memAddAll sampleGrow [hookInfo, hookA] sampleMemory = some M21 ∧ M12.abs = M21.abs ∧
      M12.view 2 = [hookA, hookB, hookC, hookA] ∧ M21.view 4 = [hookWE, hookInfo] := by
  obtain ⟨M12, M21, ha, hb, habs, _⟩ :=
    (Add_commutes_on_disjoint_levels sampleGrow sampleMemory sampleMemory_separate
      hookA hookInfo (by decide)).2.1 (by simp [sampleMemory])
  cases ha
  cases hb
  exact ⟨_, _, rfl, rfl, habs, rfl, rfl⟩

/-! ## Hooks that reach the registry: the frame of Fire -/

theorem worldFireStep_world
    (fire : Nat → World Level Entry → World Level Entry × Option Error)
    (s : WorldFireState Level Entry Error) (hook : Nat) :
    (worldFireStep fire s hook).world = (fire hook s.world).1 := by
  unfold worldFireStep
  split <;> simp_all

theorem worldFireStep_calls
    (fire : Nat → World Level Entry → World Level Entry × Option Error)
    (s : WorldFireState Level Entry Error) (hook : Nat) :
    (worldFireStep fire s hook).calls = s.calls ++ [hook] := by
  unfold worldFireStep
  split <;> rfl

theorem foldl_worldFireStep_calls
    (fire : Nat → World Level Entry → World Level Entry × Option Error)
    (hs : List Nat) (s : WorldFireState Level Entry Error) :
    (hs.foldl (worldFireStep fire) s).calls = s.calls ++ hs := by
  induction hs generalizing s with
  | nil => simp
  | cons hook rest ih =>
    rw [List.foldl_cons, ih, worldFireStep_calls]
    simp

theorem foldl_worldFireStep_hooks
    (fire : Nat → World Level Entry → World Level Entry × Option Error)
    (hs : List Nat) (s : WorldFireState Level Entry Error)
    (hframe : ∀ hook ∈ hs, ∀ w1 : World Level Entry, (fire hook w1).1.hooks = w1.hooks) :
    (hs.foldl (worldFireStep fire) s).world.hooks = s.world.hooks := by
  induction hs generalizing s with
  | nil => rfl
  | cons hook rest ih =>
    rw [List.foldl_cons, ih _ (fun k hk => hframe k (List.mem_cons_of_mem _ hk)),
      worldFireStep_world]
    exact hframe hook (List.mem_cons_self _ _) s.world

theorem worldFireStep_agrees (impl : Nat → Hook Level Entry Error)
    (s : WorldFireState Level Entry Error) (t : FireState Level Entry Error) (a : Nat)
    (h : s.Agrees impl t) :
    (worldFireStep (liftFire impl) s a).Agrees impl (fireStep t (impl a)) := by
  obtain ⟨he, hc, hf⟩ := h
  unfold worldFireStep fireStep liftFire WorldFireState.Agrees
  simp only [he]
  cases hr : ((impl a).Fire t.entry).2 with
  | none =>
    have hp : (impl a).Fire t.entry = (((impl a).Fire t.entry).1, none) := by
      rw [← hr]
    rw [hp]
    simp only [FireState.invoked, List.map_append, List.map_cons, List.map_nil] at hc ⊢
    exact ⟨trivial, by rw [hc], hf⟩
  | some err =>
    have hp : (impl a).Fire t.entry = (((impl a).Fire t.entry).1, some err) := by
      rw [← hr]
    rw [hp]
    simp only [FireState.invoked, List.map_append, List.map_cons, List.map_nil] at hc ⊢
    refine ⟨trivial, by rw [hc], ?_⟩
    rw [← hf]
    cases s.hookFailures <;> simp

/-- With hooks that reach the entry only, the loop of `Fire` on the program state
runs as the loop of `Fire` on the registry of these hooks. -/
theorem World.Fire_liftFire (impl : Nat → Hook Level Entry Error) (w : World Level Entry)
    (level : Level) :
    (w.Fire (liftFire impl) level).Agrees impl
      ((LevelHooks.made (fun k => some ((w.hooks k).map impl))).Fire level w.entry) := by
  unfold World.Fire LevelHooks.Fire
  have hgen : ∀ (hs : List Nat) (s : WorldFireState Level Entry Error)
      (t : FireState Level Entry Error), s.Agrees impl t →
      (hs.foldl (worldFireStep (liftFire impl)) s).Agrees impl
        ((hs.map impl).foldl fireStep t) := by
    intro hs
    induction hs with
    | nil => exact fun s t h => h
    | cons a rest ih =>
      intro s t h
      exact ih _ _ (worldFireStep_agrees impl s t a h)
  exact hgen (w.hooks level) _ _ ⟨rfl, rfl, rfl⟩

/-- C11 fails as stated: the hook at address 0, stored under error, calls Add from
its Fire method with the hook at address 1; Fire at error returns nil, and the
registry that held the one hook under error before the call holds two after it; a
second Fire at error invokes two hooks where the first invoked one. -/
theorem Fire_reentrant_hook_counterexample :
    reentrantWorld.hooks 2 = [0] ∧
      (reentrantWorld.Fire reentrantFire 2).world.hooks 2 = [0, 1] ∧
      (reentrantWorld.Fire reentrantFire 2).hookFailures = none ∧
      (reentrantWorld.Fire reentrantFire 2).calls = [0] ∧
      ((reentrantWorld.Fire reentrantFire 2).world.Fire reentrantFire 2).calls = [0, 1] :=
  ⟨rfl, rfl, rfl, rfl, rfl⟩

/-- C11 amended: Fire itself does not modify the registry.  When none of the hooks
stored under the level changes the registry from its Fire method, the registry
after Fire(level, entry) is the registry before it, so every level maps to the same
hook sequence as before, whatever the hooks returned and whatever they did to the
entry; Fire invokes the hooks stored under the level, and a further Fire at the same
level invokes the same hook sequence as the first. -/
theorem Fire_leaves_registry
    (fire : Nat → World Level Entry → World Level Entry × Option Error)
    (w : World Level Entry) (level : Level)
    (hframe : ∀ hook ∈ w.hooks level, ∀ w1 : World Level Entry,
      (fire hook w1).1.hooks = w1.hooks) :
    (w.Fire fire level).world.hooks = w.hooks ∧
    (∀ l, (w.Fire fire level).world.hooks l = w.hooks l) ∧
    (w.Fire fire level).calls = w.hooks level ∧
    ((w.Fire fire level).world.Fire fire level).calls = (w.Fire fire level).calls := by
  have hh : (w.Fire fire level).world.hooks = w.hooks :=
    foldl_worldFireStep_hooks fire (w.hooks level) _ hframe
  have hc : ∀ v : World Level Entry, (v.Fire fire level).calls = v.hooks level := by
    intro v
    unfold World.Fire
    rw [foldl_worldFireStep_calls]
    rfl
  refine ⟨hh, fun l => by rw [hh], hc w, ?_⟩
  rw [hc, hc, hh]

/-- The hooks at 0 and 1 of quietFire do not touch the registry; the one at 0 marks
the entry and fails.  After Fire at error the registry is as before, the failure is
reported, and a second Fire at error invokes the same two hooks. -/
theorem Fire_leaves_registry_witness :
    (quietWorld.Fire quietFire 2).world.hooks = quietWorld.hooks ∧
      (quietWorld.Fire quietFire 2).hookFailures = some [(0, "failed")] ∧
      (quietWorld.Fire quietFire 2).world.entry = ["0"] ∧
      (quietWorld.Fire quietFire 2).calls = [0, 1] ∧
      ((quietWorld.Fire quietFire 2).world.Fire quietFire 2).calls = [0, 1] := by
  have h := Fire_leaves_registry quietFire quietWorld 2 (by
    intro hook _ w1
    cases hook <;> rfl)
  exact ⟨h.1, rfl, rfl, h.2.2.1, h.2.2.2.trans h.2.2.1⟩

end Logrus
